import Mathlib

/-!
Verification of the bokuao-notify extraction-and-delivery pipeline.

Strings from the Python sources are modelled as `List Char` (`Str`):
Python `len` is `List.length`, slicing is `take`/`drop`, `str.strip()` is
`pyStrip`, `str.find` is `findSub`, `in` (substring) is `containsSub`,
`str.split(sep)` is `splitOnSep`, and `"\n\n".join` is `joinNN`.
Pure functions of `src/bokuao_news.py`, `src/notify_bokuao.py` and
`src/notify_bokuao_news.py` are translated one-to-one; network effects are
modelled by passing an oracle mapping a request to its response.
-/

/-- Strings of the Python sources, modelled as lists of characters. -/
abbrev Str := List Char

/-- Characters stripped by Python `str.strip()` (the whitespace forms that
occur in this code base: ASCII whitespace, NBSP and the ideographic space). -/
def isPySpace (c : Char) : Bool :=
  c = ' ' || c = '\t' || c = '\n' || c = '\r' || c = '\x0b' || c = '\x0c' ||
  c = ' ' || c = '　'

/-- Python `str.lstrip()` restricted to a character predicate. -/
def pyLstripBy (p : Char → Bool) (s : Str) : Str := s.dropWhile p

/-- Python `str.rstrip()` restricted to a character predicate: removes the
trailing run of characters satisfying `p`. -/
def pyRstripBy (p : Char → Bool) : Str → Str
  | [] => []
  | c :: t =>
    let r := pyRstripBy p t
    if r = [] && p c then [] else c :: r

/-- Python `str.strip()`. -/
def pyStrip (s : Str) : Str := pyRstripBy isPySpace (pyLstripBy isPySpace s)

/-- Python `str.rstrip()`. -/
def pyRstrip (s : Str) : Str := pyRstripBy isPySpace s

/-- Python `str.lstrip()`. -/
def pyLstrip (s : Str) : Str := pyLstripBy isPySpace s

/-- Python `haystack.find(needle)`, returning `none` for `-1`. -/
def findSub : Str → Str → Option Nat
  | s, m =>
    if m.isPrefixOf s then some 0
    else
      match s with
      | [] => none
      | _ :: t => (findSub t m).map (· + 1)

/-- Python `needle in haystack` (substring containment). -/
def containsSub (s m : Str) : Bool := (findSub s m).isSome

/-- The blank-line paragraph separator `"\n\n"`. -/
def nn : Str := ['\n', '\n']

theorem findSub_bound : ∀ (s m : Str) (i : Nat), findSub s m = some i →
    i + m.length ≤ s.length := by
  intro s
  induction s with
  | nil =>
    intro m i h
    rw [findSub] at h
    by_cases hp : m.isPrefixOf ([] : Str)
    · have hm : m = [] := by
        have := (List.isPrefixOf_iff_prefix).1 hp
        exact List.prefix_nil.mp this
      simp [hp] at h
      subst h
      simp [hm]
    · simp [hp] at h
  | cons a t ih =>
    intro m i h
    rw [findSub] at h
    by_cases hp : m.isPrefixOf (a :: t)
    · simp [hp] at h
      subst h
      simpa using List.IsPrefix.length_le ((List.isPrefixOf_iff_prefix).1 hp)
    · simp [hp] at h
      match h2 : findSub t m with
      | none => simp [h2] at h
      | some j =>
        simp [h2] at h
        subst h
        have := ih m j h2
        simp only [List.length_cons]
        omega

/-- Python `s.split(sep)` for a fixed non-empty separator, splitting at
non-overlapping occurrences left to right. -/
def splitOnSep (sep : Str) (s : Str) : List Str :=
  if hsep : sep = [] then [s]
  else
    match h : findSub s sep with
    | none => [s]
    | some i => s.take i :: splitOnSep sep (s.drop (i + sep.length))
termination_by s.length
decreasing_by
  simp only [List.length_drop]
  have hb : i + sep.length ≤ s.length := findSub_bound s sep i h
  have hlen : 1 ≤ sep.length := by
    cases sep with
    | nil => exact absurd rfl hsep
    | cons a t => simp
  omega

/-- Python `"\n\n".join`. -/
def joinNN : List Str → Str
  | [] => []
  | [p] => p
  | p :: q :: rest => p ++ nn ++ joinNN (q :: rest)

/-! Constants of `src/bokuao_news.py`. -/

def DISCORD_CONTENT_LIMIT : Nat := 2000
def EMBED_TITLE_LIMIT : Nat := 256
def EMBED_DESC_LIMIT_HARD : Nat := 4096
def EMBED_DESC_LIMIT_SOFT : Nat := 4000
def MAX_IMAGES_PER_POST : Nat := 10
def MAX_IMAGE_BYTES : Nat := 7 * 1024 * 1024

/-- `NEWS_CATEGORIES` of `src/bokuao_news.py`. -/
def NEWS_CATEGORIES : List Str :=
  ["OTHER".toList, "NEWS".toList, "EVENT".toList, "MEDIA".toList,
   "LIVE/EVENT".toList]

/-- `truncate` of `src/bokuao_news.py` (`None` is modelled by `none`): empty
or missing input gives `""`; otherwise a string within `limit` is returned
unchanged, and a longer one is cut to `limit - 1` characters plus `…`. -/
def truncate (s : Option Str) (limit : Nat) : Str :=
  match s with
  | none => []
  | some s =>
    if s = [] then []
    else if s.length ≤ limit then s
    else s.take (limit - 1) ++ ['…']

/-- `truncate_for_discord` of `src/notify_bokuao_news.py`. -/
def truncate_for_discord (s : Str) (limit : Nat) : Str :=
  if s.length ≤ limit then s
  else s.take (limit - 1) ++ ['…']

/-- `cut_at_first_marker`, identical in `src/bokuao_news.py`,
`src/notify_bokuao.py` and `src/notify_bokuao_news.py`: truncate `text` at
the smallest first-occurrence index of any marker, then `rstrip`. -/
def cut_at_first_marker (text : Str) (markers : List Str) : Str :=
  let idxs := markers.filterMap (fun m => findSub text m)
  match idxs with
  | [] => pyRstrip text
  | i :: rest => pyRstrip (text.take (rest.foldl min i))

/-- `_norm_comp` of `src/bokuao_news.py`: strip, then delete every ASCII and
ideographic space. -/
def norm_comp (s : Str) : Str :=
  (pyStrip s).filter (fun c => !(c = ' ' || c = '　'))

/-- `re.fullmatch` of `NEWS_DATE_RE` (pattern `\b20\d{2}\.\d{2}\.\d{2}\b`):
the whole string is `20YY.MM.DD` with digits. -/
def isFullDate (s : Str) : Bool :=
  match s with
  | ['2', '0', y1, y2, '.', m1, m2, '.', d1, d2] =>
    y1.isDigit && y2.isDigit && m1.isDigit && m2.isDigit && d1.isDigit &&
    d2.isDigit
  | _ => false

/-- One test of the pop-loop of `strip_leading_header_lines`: the head line
is removed while it is blank, equals (space-insensitively) the title,
category or date, is a bare date, or is a known category or boilerplate
label. `t`, `c`, `d` are the already-normalised title, category and date. -/
def headerMatch (t c d : Str) (l : Str) : Bool :=
  let head_raw := pyStrip l
  let head := norm_comp head_raw
  head = [] || head = t || head = c || head = d || isFullDate head_raw ||
  decide (head_raw ∈ NEWS_CATEGORIES) ||
  decide (head ∈ ["NEWS".toList, "SHARE".toList, "BACK".toList,
                  "SUPPORT".toList])

/-- The `while out:` pop-loop of `strip_leading_header_lines`. -/
def stripLoop (t c d : Str) : List Str → List Str
  | [] => []
  | l :: rest => if headerMatch t c d l then stripLoop t c d rest else l :: rest

/-- `strip_leading_header_lines` of `src/bokuao_news.py`: pop matching
leading paragraphs, then drop remaining leading blank paragraphs. -/
def strip_leading_header_lines (lines : List Str) (title category date : Str) :
    List Str :=
  (stripLoop (norm_comp title) (norm_comp category) (norm_comp date)
      lines).dropWhile (fun l => decide (pyStrip l = []))

/-- The `while len(p) > limit` forced-split loop of
`chunk_text_by_paragraph`: returns the emitted full chunks and the final
remainder (which becomes the new buffer). For `limit = 0` the Python loop
would not terminate; that case never arises (the only call site uses 2000). -/
def hardCut (limit : Nat) (p : Str) : List Str × Str :=
  if limit = 0 ∨ p.length ≤ limit then ([], p)
  else
    let r := hardCut limit (p.drop limit)
    (p.take limit :: r.1, r.2)
termination_by p.length
decreasing_by
  rename_i h
  push_neg at h
  simp only [List.length_drop]
  omega

/-- The paragraph-accumulation loop of `chunk_text_by_paragraph`. -/
def chunkLoop (limit : Nat) : List Str → Str → List Str → List Str
  | [], buf, chunks => chunks ++ (if buf = [] then [] else [buf])
  | p :: rest, buf, chunks =>
    let candidate := pyStrip (buf ++ (if buf = [] then [] else nn) ++ p)
    if candidate.length ≤ limit then chunkLoop limit rest candidate chunks
    else
      let chunks1 := chunks ++ (if buf = [] then [] else [buf])
      let hc := hardCut limit p
      chunkLoop limit rest hc.2 (chunks1 ++ hc.1)

/-- `chunk_text_by_paragraph` of `src/bokuao_news.py`: split at blank-line
paragraph boundaries, greedily packing paragraphs into chunks of at most
`limit` characters, force-cutting a single oversized paragraph. -/
def chunk_text_by_paragraph (text : Str) (limit : Nat) : List Str :=
  let text := pyStrip text
  if text = [] then []
  else
    let paras := ((splitOnSep nn text).map pyStrip).filter (fun p => p ≠ [])
    chunkLoop limit paras [] []

/-- The greedy paragraph-accumulation loop of `split_for_embed`. -/
def greedyAcc (lim : Nat) : List Str → List Str → Nat → List Str
  | [], acc, _ => acc
  | p :: rest, acc, cur =>
    let add := p.length + (if acc = [] then 0 else 2)
    if cur + add ≤ lim then greedyAcc lim rest (acc ++ [p]) (cur + add)
    else acc

/-- `split_for_embed` of `src/bokuao_news.py`: split `body` into the part
that goes into the embed and the remainder, preferring paragraph
boundaries, with a hard character cut when the first paragraph alone
exceeds the limit. -/
def split_for_embed (body : Str) (embed_body_limit : Nat) : Str × Str :=
  let body := pyStrip body
  if body = [] then ([], [])
  else if body.length ≤ embed_body_limit then (body, [])
  else
    let paras := ((splitOnSep nn body).map pyStrip).filter (fun p => p ≠ [])
    let acc := greedyAcc embed_body_limit paras [] 0
    if acc ≠ [] then
      let primary := pyStrip (joinNN acc)
      let rest := pyLstrip (body.drop primary.length)
      let rest := pyLstrip (pyLstripBy (fun c => c = '\n') rest)
      (primary, rest)
    else (body.take embed_body_limit, body.drop embed_body_limit)

/-- A normalized paragraph as produced by the body normaliser of
`src/bokuao_news.py`: non-empty, no leading or trailing whitespace, and no
internal blank line. -/
def cleanPara (p : Str) : Bool :=
  decide (p ≠ []) && !isPySpace (p.headD 'a') && !isPySpace (p.getLastD 'a') &&
  !containsSub p nn

theorem getLastD_irrel {p : Str} (h : p ≠ []) (d d' : Char) :
    p.getLastD d = p.getLastD d' := by
  rw [List.getLastD_eq_getLast?, List.getLastD_eq_getLast?]
  cases hq : p.getLast? with
  | none => exact absurd (List.getLast?_eq_none_iff.mp hq) h
  | some x => rfl

theorem pyLstripBy_of_head {q : Char → Bool} {c : Char} {t : Str}
    (h : q c = false) : pyLstripBy q (c :: t) = c :: t := by
  simp [pyLstripBy, h]

theorem pyRstripBy_cons (q : Char → Bool) (c : Char) (t : Str) :
    pyRstripBy q (c :: t) =
      if pyRstripBy q t = [] ∧ q c = true then [] else c :: pyRstripBy q t := by
  rw [pyRstripBy]
  by_cases h : pyRstripBy q t = [] ∧ q c = true
  · simp [h.1, h.2]
  · rw [if_neg h, if_neg]
    simp only [Bool.and_eq_true, decide_eq_true_eq]
    exact h

theorem pyRstripBy_of_getLastD {q : Char → Bool} :
    ∀ {s : Str}, s ≠ [] → q (s.getLastD 'a') = false → pyRstripBy q s = s := by
  intro s
  induction s with
  | nil => intro h; exact absurd rfl h
  | cons c t ih =>
    intro _ hl
    cases t with
    | nil =>
      have hc : q c = false := by
        simpa [List.getLastD_cons] using hl
      rw [pyRstripBy_cons]
      simp [pyRstripBy, hc]
    | cons c2 t2 =>
      have ht : (c2 :: t2 : Str) ≠ [] := by simp
      have hl2 : q ((c2 :: t2 : Str).getLastD 'a') = false := by
        rw [getLastD_irrel ht 'a' c]
        simpa [List.getLastD_cons] using hl
      have heq := ih ht hl2
      rw [pyRstripBy_cons, heq]
      simp

theorem pyRstripBy_front {q : Char → Bool} : ∀ s : Str, pyRstripBy q s <+: s := by
  intro s
  induction s with
  | nil => simp [pyRstripBy]
  | cons c t ih =>
    rw [pyRstripBy_cons]
    by_cases h : pyRstripBy q t = [] ∧ q c = true
    · simp [h.1, h.2]
    · rw [if_neg h]
      exact (List.prefix_cons_inj c).mpr ih

theorem pyRstripBy_getLastD {q : Char → Bool} :
    ∀ {s : Str}, pyRstripBy q s ≠ [] → q ((pyRstripBy q s).getLastD 'a') = false := by
  intro s
  induction s with
  | nil => intro h; exact absurd rfl h
  | cons c t ih =>
    intro hne
    rw [pyRstripBy_cons] at hne ⊢
    by_cases hr : pyRstripBy q t = []
    · by_cases hc : q c = true
      · exact absurd (by simp [hr, hc]) hne
      · rw [if_neg (fun hx => hc hx.2)]
        simp only [Bool.not_eq_true] at hc
        simp [hr, hc]
    · rw [if_neg (fun hx => hr hx.1)]
      rw [getLastD_irrel (by simp) 'a' c]
      simp only [List.getLastD_cons]
      rw [getLastD_irrel hr c 'a']
      exact ih hr

/-- A string with a non-whitespace first and last character is unchanged by
`strip`. -/
theorem pyStrip_of_edge {s : Str} (h : s ≠ [])
    (h1 : isPySpace (s.headD 'a') = false)
    (h2 : isPySpace (s.getLastD 'a') = false) : pyStrip s = s := by
  cases s with
  | nil => exact absurd rfl h
  | cons c t =>
    simp only [List.headD_cons] at h1
    rw [pyStrip, pyLstripBy_of_head h1]
    exact pyRstripBy_of_getLastD (by simp) h2

theorem cleanPara_strip {p : Str} (h : cleanPara p = true) : pyStrip p = p := by
  simp only [cleanPara, Bool.and_eq_true, Bool.not_eq_true', decide_eq_true_eq] at h
  exact pyStrip_of_edge h.1.1.1 h.1.1.2 h.1.2

theorem cleanPara_ne_nil {p : Str} (h : cleanPara p = true) : p ≠ [] := by
  simp only [cleanPara, Bool.and_eq_true, decide_eq_true_eq] at h
  exact h.1.1.1

theorem cleanPara_no_nn {p : Str} (h : cleanPara p = true) :
    findSub p nn = none := by
  simp only [cleanPara, Bool.and_eq_true, Bool.not_eq_true', containsSub] at h
  exact Option.not_isSome_iff_eq_none.mp (by simp [h.2])

theorem cleanPara_head {p : Str} (h : cleanPara p = true) :
    isPySpace (p.headD 'a') = false := by
  simp only [cleanPara, Bool.and_eq_true, Bool.not_eq_true'] at h
  exact h.1.1.2

theorem cleanPara_last {p : Str} (h : cleanPara p = true) :
    isPySpace (p.getLastD 'a') = false := by
  simp only [cleanPara, Bool.and_eq_true, Bool.not_eq_true'] at h
  exact h.1.2

theorem joinNN_cons {p : Str} {ps : List Str} (h : ps ≠ []) :
    joinNN (p :: ps) = p ++ nn ++ joinNN ps := by
  cases ps with
  | nil => exact absurd rfl h
  | cons q rest => rfl

theorem joinNN_append : ∀ {ps qs : List Str}, ps ≠ [] → qs ≠ [] →
    joinNN (ps ++ qs) = joinNN ps ++ nn ++ joinNN qs := by
  intro ps
  induction ps with
  | nil => intro qs h _; exact absurd rfl h
  | cons p rest ih =>
    intro qs _ hq
    cases rest with
    | nil => simpa using joinNN_cons hq
    | cons r rest2 =>
      have h1 : (r :: rest2 : List Str) ++ qs ≠ [] := by simp
      rw [List.cons_append, joinNN_cons (by simp), joinNN_cons (by simp),
          ih (by simp) hq]
      simp [List.append_assoc]

theorem joinNN_ne_nil {ps : List Str} (h : ps ≠ [])
    (h2 : ∀ p ∈ ps, p ≠ []) : joinNN ps ≠ [] := by
  cases ps with
  | nil => exact absurd rfl h
  | cons p rest =>
    cases rest with
    | nil => exact h2 p (by simp)
    | cons q rest2 =>
      rw [joinNN_cons (by simp)]
      have := h2 p (by simp)
      intro hc
      simp at hc
      exact this hc.1

theorem joinNN_headD {p : Str} {ps : List Str} (hp : p ≠ []) :
    (joinNN (p :: ps)).headD 'a' = p.headD 'a' := by
  cases ps with
  | nil => rfl
  | cons q rest =>
    rw [joinNN_cons (by simp)]
    cases p with
    | nil => exact absurd rfl hp
    | cons c t => simp

theorem joinNN_getLastD : ∀ {ps : List Str}, ps ≠ [] → (∀ p ∈ ps, p ≠ []) →
    (joinNN ps).getLastD 'a' = (ps.getLastD []).getLastD 'a' := by
  intro ps
  induction ps with
  | nil => intro h _; exact absurd rfl h
  | cons p rest ih =>
    intro _ hall
    cases rest with
    | nil => simp [joinNN]
    | cons q rest2 =>
      rw [joinNN_cons (by simp)]
      have hj : joinNN (q :: rest2) ≠ [] :=
        joinNN_ne_nil (by simp) (fun x hx => hall x (by simp [hx]))
      rw [List.getLastD_eq_getLast?, List.getLast?_append]
      cases hq2 : (joinNN (q :: rest2)).getLast? with
      | none => exact absurd (List.getLast?_eq_none_iff.mp hq2) hj
      | some x =>
        have hx : (joinNN (q :: rest2)).getLastD 'a' = x := by
          rw [List.getLastD_eq_getLast?, hq2]; rfl
        have := ih (by simp) (fun y hy => hall y (by simp [hy]))
        simp only [Option.or_some, Option.getD_some]
        rw [hx] at this
        rw [this]
        simp [List.getLastD_cons]

/-- The edges of a join of clean paragraphs are the edges of the first and
last paragraph, so the join is itself clean at the edges. -/
theorem joinNN_edge {ps : List Str} (h : ps ≠ [])
    (hc : ∀ p ∈ ps, cleanPara p = true) :
    joinNN ps ≠ [] ∧ isPySpace ((joinNN ps).headD 'a') = false ∧
      isPySpace ((joinNN ps).getLastD 'a') = false := by
  have hne : ∀ p ∈ ps, p ≠ [] := fun p hp => cleanPara_ne_nil (hc p hp)
  refine ⟨joinNN_ne_nil h hne, ?_, ?_⟩
  · cases ps with
    | nil => exact absurd rfl h
    | cons p rest =>
      rw [joinNN_headD (hne p (by simp))]
      exact cleanPara_head (hc p (by simp))
  · rw [joinNN_getLastD h hne]
    have hmem : ps.getLastD [] ∈ ps := by
      cases ps with
      | nil => exact absurd rfl h
      | cons p rest =>
        rw [List.getLastD_eq_getLast?, List.getLast?_eq_getLast _ (by simp)]
        simp [List.getLast_mem]
    exact cleanPara_last (hc _ hmem)

theorem pyStrip_joinNN {ps : List Str} (h : ps ≠ [])
    (hc : ∀ p ∈ ps, cleanPara p = true) : pyStrip (joinNN ps) = joinNN ps := by
  obtain ⟨h1, h2, h3⟩ := joinNN_edge h hc
  exact pyStrip_of_edge h1 h2 h3

theorem findSub_none : ∀ {s m : Str}, findSub s m = none →
    ∀ i, m.isPrefixOf (s.drop i) = false := by
  intro s
  induction s with
  | nil =>
    intro m h i
    rw [findSub] at h
    by_cases hp : m.isPrefixOf ([] : Str)
    · simp [hp] at h
    · simpa [List.drop_nil] using (Bool.not_eq_true _).mp hp
  | cons c t ih =>
    intro m h i
    rw [findSub] at h
    by_cases hp : m.isPrefixOf (c :: t)
    · simp [hp] at h
    · simp only [hp, if_false] at h
      have ht : findSub t m = none := by
        cases h2 : findSub t m with
        | none => rfl
        | some j => simp [h2] at h
      cases i with
      | zero => simpa using (Bool.not_eq_true _).mp hp
      | succ i2 => simpa using ih ht i2

theorem findSub_isPrefixOf : ∀ {s m : Str} {i : Nat}, findSub s m = some i →
    m.isPrefixOf (s.drop i) = true := by
  intro s
  induction s with
  | nil =>
    intro m i h
    rw [findSub] at h
    by_cases hp : m.isPrefixOf ([] : Str)
    · simp [hp] at h
      subst h
      simpa using hp
    · simp [hp] at h
  | cons c t ih =>
    intro m i h
    rw [findSub] at h
    by_cases hp : m.isPrefixOf (c :: t)
    · simp [hp] at h
      subst h
      simpa using hp
    · simp only [hp, if_false] at h
      cases h2 : findSub t m with
      | none => simp [h2] at h
      | some j =>
        simp [h2] at h
        subst h
        simpa using ih h2

theorem findSub_min : ∀ {s m : Str} {i : Nat}, findSub s m = some i →
    ∀ j, j < i → m.isPrefixOf (s.drop j) = false := by
  intro s
  induction s with
  | nil =>
    intro m i h j hj
    rw [findSub] at h
    by_cases hp : m.isPrefixOf ([] : Str)
    · simp [hp] at h
      omega
    · simp [hp] at h
  | cons c t ih =>
    intro m i h j hj
    rw [findSub] at h
    by_cases hp : m.isPrefixOf (c :: t)
    · simp [hp] at h
      omega
    · simp only [hp, if_false] at h
      cases h2 : findSub t m with
      | none => simp [h2] at h
      | some k =>
        simp [h2] at h
        subst h
        cases j with
        | zero => simpa using (Bool.not_eq_true _).mp hp
        | succ j2 => simpa using ih h2 j2 (by omega)

/-- If a non-overlapping occurrence exists, `find` returns an index no
larger than it. -/
theorem findSub_le_of_occurs {s m : Str} {i : Nat}
    (h : m.isPrefixOf (s.drop i) = true) :
    ∃ j, j ≤ i ∧ findSub s m = some j := by
  cases hf : findSub s m with
  | none => exact absurd h (by simp [findSub_none hf i])
  | some j =>
    refine ⟨j, ?_, rfl⟩
    by_contra hlt
    have := findSub_min hf i (by omega)
    rw [h] at this
    exact Bool.true_eq_false.mp this

/-- In `p ++ "\n\n" ++ r` where `p` contains no blank line and does not end
in a newline, the first occurrence of `"\n\n"` is exactly at `p.length`. -/
theorem findSub_sepAt : ∀ {p : Str} (r : Str), findSub p nn = none →
    (p ≠ [] → p.getLastD 'a' ≠ '\n') →
    findSub (p ++ nn ++ r) nn = some p.length := by
  intro p
  induction p with
  | nil =>
    intro r _ _
    simp only [List.nil_append]
    rw [findSub.eq_def]
    have : nn.isPrefixOf (nn ++ r) = true :=
      List.isPrefixOf_iff_prefix.mpr (List.prefix_append nn r)
    simp [this]
  | cons c p2 ih =>
    intro r hno hlast
    have hnp : nn.isPrefixOf (c :: p2 ++ nn ++ r) = false := by
      cases p2 with
      | nil =>
        have hc : c ≠ '\n' := by
          simpa [List.getLastD_cons] using hlast (by simp)
        simp only [Bool.eq_false_iff]
        intro hpre
        have := List.isPrefixOf_iff_prefix.mp hpre
        simp only [nn] at this
        rcases this with ⟨tail, htail⟩
        simp at htail
        exact hc htail.1.symm
      | cons c2 p3 =>
        simp only [Bool.eq_false_iff]
        intro hpre
        have := List.isPrefixOf_iff_prefix.mp hpre
        simp only [nn] at this
        rcases this with ⟨tail, htail⟩
        simp at htail
        obtain ⟨h1, h2, _⟩ := htail
        rw [findSub] at hno
        have : nn.isPrefixOf (c :: c2 :: p3) = true := by
          apply List.isPrefixOf_iff_prefix.mpr
          refine ⟨p3, ?_⟩
          rw [← h1, ← h2]
          rfl
        simp [this] at hno
    have hno2 : findSub p2 nn = none := by
      rw [findSub] at hno
      by_cases hp : nn.isPrefixOf (c :: p2)
      · simp [hp] at hno
      · simp only [hp, if_false] at hno
        cases h2 : findSub p2 nn with
        | none => rfl
        | some j => simp [h2] at hno
    have hlast2 : p2 ≠ [] → p2.getLastD 'a' ≠ '\n' := by
      intro hne
      rw [getLastD_irrel hne 'a' c]
      have hx := hlast (by simp)
      rw [List.getLastD_cons] at hx
      exact hx
    have hrec := ih r hno2 hlast2
    have harr : (c :: p2 : Str) ++ nn ++ r = c :: (p2 ++ nn ++ r) := by simp
    rw [harr]
    rw [findSub]
    rw [harr] at hnp
    simp only [hnp, if_false]
    rw [hrec]
    simp

theorem splitOnSep_of_none {sep s : Str} (h : findSub s sep = none) :
    splitOnSep sep s = [s] := by
  rw [splitOnSep]
  by_cases hsep : sep = []
  · simp [hsep]
  · rw [dif_neg hsep]
    split
    · rfl
    · rename_i j heq
      rw [h] at heq
      cases heq

theorem splitOnSep_step {sep s : Str} {i : Nat} (hsep : sep ≠ [])
    (h : findSub s sep = some i) :
    splitOnSep sep s = s.take i :: splitOnSep sep (s.drop (i + sep.length)) := by
  rw [splitOnSep, dif_neg hsep]
  split
  · rename_i heq
    rw [h] at heq
    cases heq
  · rename_i j heq
    rw [h] at heq
    injection heq with h2
    subst h2
    rfl

/-- Splitting the blank-line join of clean paragraphs recovers exactly the
paragraphs. -/
theorem splitOnSep_joinNN : ∀ {ps : List Str}, ps ≠ [] →
    (∀ p ∈ ps, cleanPara p = true) → splitOnSep nn (joinNN ps) = ps := by
  intro ps
  induction ps with
  | nil => intro h _; exact absurd rfl h
  | cons p rest ih =>
    intro _ hc
    cases rest with
    | nil =>
      show splitOnSep nn (joinNN [p]) = [p]
      have : joinNN [p] = p := rfl
      rw [this]
      exact splitOnSep_of_none (cleanPara_no_nn (hc p (by simp)))
    | cons q rest2 =>
      have hp := hc p (by simp)
      rw [joinNN_cons (by simp)]
      have hfind : findSub (p ++ nn ++ joinNN (q :: rest2)) nn = some p.length := by
        apply findSub_sepAt _ (cleanPara_no_nn hp)
        intro hpne
        have hlast := cleanPara_last hp
        intro hl
        rw [hl] at hlast
        simp [isPySpace] at hlast
      rw [splitOnSep_step (by simp [nn]) hfind]
      have htake : (p ++ nn ++ joinNN (q :: rest2)).take p.length = p := by
        rw [List.append_assoc]
        exact List.take_left p _
      have hdrop : (p ++ nn ++ joinNN (q :: rest2)).drop (p.length + nn.length) =
          joinNN (q :: rest2) := by
        exact List.drop_left' (by simp)
      rw [htake, hdrop, ih (by simp) (fun x hx => hc x (by simp [hx]))]

theorem pyRstripBy_idem (q : Char → Bool) (s : Str) :
    pyRstripBy q (pyRstripBy q s) = pyRstripBy q s := by
  by_cases h : pyRstripBy q s = []
  · rw [h]; rfl
  · exact pyRstripBy_of_getLastD h (pyRstripBy_getLastD h)

theorem foldl_min_le_init : ∀ (l : List Nat) (a : Nat), l.foldl min a ≤ a := by
  intro l
  induction l with
  | nil => intro a; simp
  | cons x t ih =>
    intro a
    simp only [List.foldl_cons]
    exact le_trans (ih (min a x)) (min_le_left a x)

theorem foldl_min_le_mem : ∀ (l : List Nat) (a x : Nat), x ∈ l →
    l.foldl min a ≤ x := by
  intro l
  induction l with
  | nil => intro a x hx; simp at hx
  | cons y t ih =>
    intro a x hx
    simp only [List.foldl_cons]
    rcases List.mem_cons.mp hx with h | h
    · subst h
      exact le_trans (foldl_min_le_init t (min a x)) (min_le_right a x)
    · exact ih (min a y) x h

theorem occurs_mono {s t m : Str} (hpre : s <+: t) {i : Nat}
    (h : m.isPrefixOf (s.drop i) = true) : m.isPrefixOf (t.drop i) = true := by
  obtain ⟨u, rfl⟩ := hpre
  apply List.isPrefixOf_iff_prefix.mpr
  have h1 : m <+: s.drop i := List.isPrefixOf_iff_prefix.mp h
  have h2 : s.drop i <+: (s ++ u).drop i := by
    rw [List.drop_append_eq_append_drop]
    exact List.prefix_append _ _
  exact h1.trans h2

theorem isPrefixOf_drop_length {s m : Str} {i : Nat} (hm : m ≠ [])
    (h : m.isPrefixOf (s.drop i) = true) : i + m.length ≤ s.length := by
  have hlen := List.IsPrefix.length_le (List.isPrefixOf_iff_prefix.mp h)
  simp only [List.length_drop] at hlen
  by_cases hi : i ≤ s.length
  · have hm1 : 1 ≤ m.length := by
      cases m with
      | nil => exact absurd rfl hm
      | cons a b => simp
    omega
  · exfalso
    have hnil : s.drop i = [] := List.drop_eq_nil_of_le (by omega)
    rw [hnil] at h
    exact hm (List.prefix_nil.mp (List.isPrefixOf_iff_prefix.mp h))

/-- C10 support: nothing in a prefix of `text` that stops before the least
first-occurrence index of the markers can contain a marker. -/
theorem no_marker_in_cut {text : Str} {markers : List Str} {m : Str}
    (hmem : m ∈ markers) (hm : m ≠ []) {res : Str} (hpre : res <+: text)
    (hlen : ∀ j, findSub text m = some j → res.length ≤ j) :
    containsSub res m = false := by
  rw [containsSub]
  cases hf : findSub res m with
  | none => rfl
  | some i =>
    exfalso
    have hocc : m.isPrefixOf (res.drop i) = true := findSub_isPrefixOf hf
    have hit : m.isPrefixOf (text.drop i) = true := occurs_mono hpre hocc
    obtain ⟨j, hji, hj⟩ := findSub_le_of_occurs hit
    have hres := hlen j hj
    have hbound := isPrefixOf_drop_length hm hocc
    have : 1 ≤ m.length := by
      cases m with
      | nil => exact absurd rfl hm
      | cons a b => simp
    omega

/-- C10 (amended): for non-empty markers, `cut_at_first_marker` returns a
prefix of the input, with trailing whitespace removed, containing no
occurrence of any marker. -/
theorem cut_marker_amended (text : Str) (markers : List Str)
    (hm : ∀ m ∈ markers, m ≠ ([] : Str)) :
    cut_at_first_marker text markers <+: text ∧
    pyRstripBy isPySpace (cut_at_first_marker text markers) =
      cut_at_first_marker text markers ∧
    ∀ m ∈ markers, containsSub (cut_at_first_marker text markers) m = false := by
  rw [cut_at_first_marker]
  cases hidx : markers.filterMap (fun m => findSub text m) with
  | nil =>
    refine ⟨pyRstripBy_front text, pyRstripBy_idem _ _, ?_⟩
    intro m hmem
    have hnone : findSub text m = none := by
      have := List.filterMap_eq_nil.mp hidx m hmem
      exact this
    apply no_marker_in_cut hmem (hm m hmem) (pyRstripBy_front text)
    intro j hj
    rw [hnone] at hj
    cases hj
  | cons i0 rest =>
    have hky : ∀ j ∈ i0 :: rest, rest.foldl min i0 ≤ j := by
      intro j hj
      rcases List.mem_cons.mp hj with h | h
      · rw [h]; exact foldl_min_le_init rest i0
      · exact foldl_min_le_mem rest i0 j h
    have hpre : pyRstripBy isPySpace (text.take (rest.foldl min i0)) <+: text :=
      (pyRstripBy_front _).trans (List.take_prefix _ _)
    refine ⟨hpre, pyRstripBy_idem _ _, ?_⟩
    intro m hmem
    apply no_marker_in_cut hmem (hm m hmem) hpre
    intro j hj
    have hjmem : j ∈ i0 :: rest := by
      rw [← hidx]
      exact List.mem_filterMap.mpr ⟨m, hmem, hj⟩
    have h1 : rest.foldl min i0 ≤ j := hky j hjmem
    have h2 : (pyRstripBy isPySpace (text.take (rest.foldl min i0))).length ≤
        rest.foldl min i0 := by
      have h4 := List.IsPrefix.length_le
        (pyRstripBy_front (q := isPySpace) (text.take (rest.foldl min i0)))
      have h3 := List.length_take_le (rest.foldl min i0) text
      omega
    omega

/-- C10 counterexample: with the empty string as a marker the claim as
stated fails — the cut result is `""`, and the empty marker still occurs
in it (Python substring semantics: `"" in ""` is true). -/
theorem cut_marker_cex :
    cut_at_first_marker ('a' :: []) ([] :: []) = [] ∧
    containsSub (cut_at_first_marker ('a' :: []) ([] :: [])) [] = true := by
  constructor
  · rfl
  · rfl

/-- C10 witness for the amended theorem at a concrete input. -/
theorem cut_marker_amended_witness :
    containsSub (cut_at_first_marker ("xSHAREy".toList) ["SHARE".toList])
      ("SHARE".toList) = false :=
  (cut_marker_amended ("xSHAREy".toList) ["SHARE".toList]
    (by decide)).2.2 ("SHARE".toList) (by decide)

/-- C9: `truncate` (and `truncate_for_discord`) leave a string within the
limit unchanged; a longer string is cut to exactly `limit` characters
ending in `…`; the result never exceeds the limit (for `limit ≥ 1`). -/
theorem truncate_bound (s : Str) (limit : Nat) (h : 1 ≤ limit) :
    (s.length ≤ limit →
      truncate (some s) limit = s ∧ truncate_for_discord s limit = s) ∧
    (limit < s.length →
      (truncate (some s) limit).length = limit ∧
      (truncate (some s) limit).getLastD 'a' = '…' ∧
      (truncate_for_discord s limit).length = limit ∧
      (truncate_for_discord s limit).getLastD 'a' = '…') ∧
    (truncate (some s) limit).length ≤ limit ∧
    (truncate_for_discord s limit).length ≤ limit := by
  by_cases hs : s = []
  · subst hs
    simp [truncate, truncate_for_discord]
  · by_cases hle : s.length ≤ limit
    · constructor
      · intro
        constructor
        · simp [truncate, hs, hle]
        · simp [truncate_for_discord, hle]
      · refine ⟨fun hlt => absurd hle (by omega), ?_, ?_⟩
        · simp [truncate, hs, hle]
        · simp [truncate_for_discord, hle]
    · have hlt : limit < s.length := by omega
      have hlen : (s.take (limit - 1) ++ ['…']).length = limit := by
        simp only [List.length_append, List.length_take, List.length_cons,
          List.length_nil]
        omega
      have hlast : (s.take (limit - 1) ++ ['…']).getLastD 'a' = '…' := by
        rw [List.getLastD_eq_getLast?, List.getLast?_append]
        rfl
      constructor
      · intro hc; omega
      · refine ⟨fun _ => ?_, ?_⟩
        · rw [show truncate (some s) limit = s.take (limit - 1) ++ ['…'] from by
            simp [truncate, hs, hle],
            show truncate_for_discord s limit = s.take (limit - 1) ++ ['…'] from by
            simp [truncate_for_discord, hle]]
          exact ⟨hlen, hlast, hlen, hlast⟩
        · rw [show truncate (some s) limit = s.take (limit - 1) ++ ['…'] from by
            simp [truncate, hs, hle],
            show truncate_for_discord s limit = s.take (limit - 1) ++ ['…'] from by
            simp [truncate_for_discord, hle]]
          omega

/-- C9 witness at a concrete input. -/
theorem truncate_bound_witness :
    (truncate (some ('a' :: 'b' :: 'c' :: [])) 2).length = 2 ∧
    (truncate (some ('a' :: 'b' :: 'c' :: [])) 2).getLastD 'a' = '…' :=
  ⟨((truncate_bound ('a' :: 'b' :: 'c' :: []) 2 (by decide)).2.1 (by decide)).1,
   ((truncate_bound ('a' :: 'b' :: 'c' :: []) 2 (by decide)).2.1 (by decide)).2.1⟩

theorem headerMatch_false_strip_ne {t c d : Str} {l : Str}
    (h : headerMatch t c d l = false) : pyStrip l ≠ [] := by
  intro hc
  rw [headerMatch] at h
  simp only [hc] at h
  have : norm_comp ([] : Str) = [] := rfl
  simp [this] at h

theorem stripLoop_result (t c d : Str) : ∀ ls, stripLoop t c d ls = [] ∨
    ∃ l rest, stripLoop t c d ls = l :: rest ∧ headerMatch t c d l = false := by
  intro ls
  induction ls with
  | nil => left; rfl
  | cons l rest ih =>
    by_cases h : headerMatch t c d l = true
    · rw [show stripLoop t c d (l :: rest) = stripLoop t c d rest from by
        simp [stripLoop, h]]
      exact ih
    · right
      refine ⟨l, rest, ?_, by simpa using h⟩
      simp [stripLoop, h]

/-- C8: `strip_leading_header_lines` is idempotent — stripping an already
stripped paragraph list changes nothing. -/
theorem strip_header_idempotent (lines : List Str) (title category date : Str) :
    strip_leading_header_lines
      (strip_leading_header_lines lines title category date) title category
      date = strip_leading_header_lines lines title category date := by
  rcases stripLoop_result (norm_comp title) (norm_comp category)
      (norm_comp date) lines with h | ⟨l, rest, h, hmf⟩
  · have hinner : strip_leading_header_lines lines title category date = [] := by
      rw [strip_leading_header_lines, h]
      rfl
    rw [hinner, strip_leading_header_lines]
    rfl
  · have hne : pyStrip l ≠ [] := headerMatch_false_strip_ne hmf
    have hdrop : (l :: rest).dropWhile (fun x => decide (pyStrip x = [])) =
        l :: rest := by
      rw [List.dropWhile_cons_of_neg]
      simpa using hne
    have hinner : strip_leading_header_lines lines title category date =
        l :: rest := by
      rw [strip_leading_header_lines, h]
      exact hdrop
    rw [hinner, strip_leading_header_lines]
    rw [show stripLoop (norm_comp title) (norm_comp category) (norm_comp date)
        (l :: rest) = l :: rest from by simp [stripLoop, hmf]]
    exact hdrop

theorem pyStrip_of_noWs {s : Str} (h : ∀ ch ∈ s, isPySpace ch = false) :
    pyStrip s = s := by
  cases hs : s with
  | nil => rfl
  | cons c t =>
    apply pyStrip_of_edge (by simp)
    · have : c ∈ s := by rw [hs]; simp
      simpa using h c this
    · have hmem : (c :: t).getLastD 'a' ∈ c :: t := by
        rw [List.getLastD_eq_getLast?, List.getLast?_eq_getLast _ (by simp)]
        exact List.getLast_mem _
      exact h _ (hs ▸ hmem)

theorem findSub_nn_none_of_noWs {s : Str}
    (h : ∀ ch ∈ s, isPySpace ch = false) : findSub s nn = none := by
  cases hf : findSub s nn with
  | none => rfl
  | some i =>
    exfalso
    have hpre := findSub_isPrefixOf hf
    have := List.isPrefixOf_iff_prefix.mp hpre
    obtain ⟨u, hu⟩ := this
    have hmem : '\n' ∈ s.drop i := by
      rw [← hu]
      simp [nn]
    have : '\n' ∈ s := List.drop_subset i s hmem
    have := h '\n' this
    simp [isPySpace] at this

/-- C5: a body that is a single whitespace-free paragraph of 5000 characters
under limit 2000: `split_for_embed` hard-cuts at character 2000, and the
3000-character overflow is chunked into at least two plain segments. -/
theorem oversized_single_paragraph (body : Str) (hlen : body.length = 5000)
    (hws : ∀ ch ∈ body, isPySpace ch = false) :
    split_for_embed body 2000 = (body.take 2000, body.drop 2000) ∧
    2 ≤ (chunk_text_by_paragraph (body.drop 2000) 2000).length := by
  have hstrip : pyStrip body = body := pyStrip_of_noWs hws
  have hne : body ≠ [] := by
    intro hc
    rw [hc] at hlen
    simp at hlen
  have hsplit : splitOnSep nn body = [body] :=
    splitOnSep_of_none (findSub_nn_none_of_noWs hws)
  constructor
  · simp only [split_for_embed, hstrip]
    rw [if_neg hne, if_neg (by omega)]
    rw [hsplit]
    have hparas : (([body].map pyStrip).filter (fun p => decide (p ≠ []))) =
        [body] := by
      simp [hstrip, hne]
    rw [hparas]
    have hacc : greedyAcc 2000 [body] [] 0 = [] := by
      rw [greedyAcc]
      rw [if_neg (by simp [hlen])]
    rw [hacc]
    simp
  · have hdws : ∀ ch ∈ body.drop 2000, isPySpace ch = false :=
      fun ch hch => hws ch (List.drop_subset 2000 body hch)
    have hdlen : (body.drop 2000).length = 3000 := by
      simp [hlen]
    have hdstrip : pyStrip (body.drop 2000) = body.drop 2000 :=
      pyStrip_of_noWs hdws
    have hdne : body.drop 2000 ≠ [] := by
      intro hc
      rw [hc] at hdlen
      simp at hdlen
    rw [chunk_text_by_paragraph]
    simp only [hdstrip]
    rw [if_neg hdne]
    rw [splitOnSep_of_none (findSub_nn_none_of_noWs hdws)]
    have hparas : ((([body.drop 2000].map pyStrip)).filter
        (fun p => decide (p ≠ []))) = [body.drop 2000] := by
      simp [hdstrip, hdne]
    rw [hparas]
    have hhc : hardCut 2000 (body.drop 2000) =
        ([(body.drop 2000).take 2000], (body.drop 2000).drop 2000) := by
      rw [hardCut]
      rw [if_neg (by rw [hdlen]; omega)]
      rw [hardCut]
      rw [if_pos (Or.inr (by simp only [List.length_drop]; omega))]
    have hstep : chunkLoop 2000 [body.drop 2000] [] [] =
        chunkLoop 2000 [] ((body.drop 2000).drop 2000)
          [(body.drop 2000).take 2000] := by
      conv_lhs => rw [chunkLoop]
      rw [show (([] : Str) ++ (if ([] : Str) = [] then [] else nn) ++
          body.drop 2000) = body.drop 2000 from by simp]
      rw [hdstrip, hdlen]
      rw [if_neg (by omega)]
      rw [hhc]
      simp
    rw [hstep]
    rw [chunkLoop]
    have hrne : (body.drop 2000).drop 2000 ≠ [] := by
      intro hc
      have h1000 : ((body.drop 2000).drop 2000).length = 1000 := by simp [hlen]
      rw [hc] at h1000
      simp at h1000
    rw [if_neg hrne]
    simp

/-- C5 witness at a concrete input. -/
theorem oversized_single_paragraph_witness :
    split_for_embed (List.replicate 5000 'a') 2000 =
      ((List.replicate 5000 'a').take 2000, (List.replicate 5000 'a').drop 2000) ∧
    2 ≤ (chunk_text_by_paragraph ((List.replicate 5000 'a').drop 2000) 2000).length :=
  oversized_single_paragraph (List.replicate 5000 'a')
    (by rw [List.length_replicate])
    (fun ch hch => by
      rw [List.eq_of_mem_replicate hch]
      rfl)

theorem truncate_length_le (s : Option Str) (limit : Nat) (h : 1 ≤ limit) :
    (truncate s limit).length ≤ limit := by
  match s with
  | none => simp [truncate]
  | some s =>
    rw [truncate]
    by_cases hs : s = []
    · simp [hs]
    · rw [if_neg hs]
      by_cases hle : s.length ≤ limit
      · simpa [hle] using hle
      · rw [if_neg hle]
        simp only [List.length_append, List.length_take, List.length_cons,
          List.length_nil]
        omega

theorem hardCut_spec (limit : Nat) : ∀ n (p : Str), p.length ≤ n →
    (∀ c ∈ (hardCut limit p).1, c.length ≤ limit) ∧
    (limit ≠ 0 → (hardCut limit p).2.length ≤ limit) := by
  intro n
  induction n with
  | zero =>
    intro p hp
    have : p = [] := List.eq_nil_of_length_eq_zero (by omega)
    subst this
    rw [hardCut]
    simp
  | succ n ih =>
    intro p hp
    rw [hardCut]
    by_cases hc : limit = 0 ∨ p.length ≤ limit
    · rw [if_pos hc]
      refine ⟨by simp, fun h0 => ?_⟩
      rcases hc with h | h
      · exact absurd h h0
      · simpa using h
    · rw [if_neg hc]
      push_neg at hc
      have hrec := ih (p.drop limit) (by
        simp only [List.length_drop]
        omega)
      refine ⟨?_, hrec.2⟩
      intro ch hch
      simp only [List.mem_cons] at hch
      rcases hch with h | h
      · rw [h]
        simp [List.length_take]
      · exact hrec.1 ch h

theorem chunkLoop_le (limit : Nat) (hl : 1 ≤ limit) : ∀ (ps : List Str)
    (buf : Str) (chunks : List Str), buf.length ≤ limit →
    (∀ c ∈ chunks, c.length ≤ limit) →
    ∀ c ∈ chunkLoop limit ps buf chunks, c.length ≤ limit := by
  intro ps
  induction ps with
  | nil =>
    intro buf chunks hbuf hchunks c hc
    rw [chunkLoop] at hc
    rcases List.mem_append.mp hc with h | h
    · exact hchunks c h
    · by_cases hb : buf = []
      · simp [hb] at h
      · simp only [if_neg hb, List.mem_singleton] at h
        rw [h]
        exact hbuf
  | cons p rest ih =>
    intro buf chunks hbuf hchunks c hc
    rw [chunkLoop] at hc
    by_cases hcand :
        (pyStrip (buf ++ (if buf = [] then [] else nn) ++ p)).length ≤ limit
    · rw [if_pos hcand] at hc
      exact ih _ _ hcand hchunks c hc
    · rw [if_neg hcand] at hc
      have hhc := hardCut_spec limit p.length p (le_refl _)
      apply ih _ _ (hhc.2 (by omega)) _ c hc
      intro x hx
      rcases List.mem_append.mp hx with h | h
      · rcases List.mem_append.mp h with h2 | h2
        · exact hchunks x h2
        · by_cases hb : buf = []
          · simp [hb] at h2
          · simp only [if_neg hb, List.mem_singleton] at h2
            rw [h2]
            exact hbuf
      · exact hhc.1 x h

theorem chunk_text_le {text : Str} {limit : Nat} (hl : 1 ≤ limit) :
    ∀ c ∈ chunk_text_by_paragraph text limit, c.length ≤ limit := by
  rw [chunk_text_by_paragraph]
  by_cases h : pyStrip text = []
  · simp [h]
  · rw [if_neg h]
    exact chunkLoop_le limit hl _ [] [] (by simp) (by simp)

/-- A Discord embed as built by `build_embed_and_overflow_messages`. -/
structure Embed where
  title : Str
  url : Str
  description : Str
deriving DecidableEq

/-- The continuation marker `"（続き）\n"` prefixed to the first overflow
message. -/
def contMarker : Str := "（続き）\n".toList

/-- `build_embed_and_overflow_messages` of `src/bokuao_news.py`: build the
embed (title truncated to 256, description = body part + footer line,
hard-capped at 4096) and the overflow content messages (2000-character
chunks, the first prefixed with the continuation marker). -/
def build_embed_and_overflow_messages (title url body category date : Str) :
    Embed × List Str :=
  let embed_title := truncate (some title) EMBED_TITLE_LIMIT
  let footer_line := pyStrip (category ++ (' ' :: '/' :: ' ' :: []) ++ date)
  let body1 := pyStrip body
  let reserve := if footer_line = [] then 0 else 2 + footer_line.length
  let embed_body_limit := EMBED_DESC_LIMIT_SOFT - reserve
  let sp := split_for_embed body1 embed_body_limit
  let body_for_embed := sp.1
  let rest := sp.2
  let desc :=
    if pyStrip body_for_embed ≠ [] then
      pyRstrip body_for_embed ++
        (if footer_line = [] then [] else nn ++ footer_line)
    else footer_line
  let desc := truncate (some desc) EMBED_DESC_LIMIT_HARD
  let rest1 := pyStrip rest
  let overflow_msgs :=
    if rest1 = [] then []
    else
      match chunk_text_by_paragraph rest1 DISCORD_CONTENT_LIMIT with
      | [] => []
      | c0 :: cs =>
        truncate (some (contMarker ++ c0)) DISCORD_CONTENT_LIMIT :: cs
  (⟨embed_title, url, desc⟩, overflow_msgs)

theorem overflow_msgs_le (rest1 : Str) :
    ∀ m ∈ (if rest1 = [] then ([] : List Str)
      else
        match chunk_text_by_paragraph rest1 DISCORD_CONTENT_LIMIT with
        | [] => []
        | c0 :: cs =>
          truncate (some (contMarker ++ c0)) DISCORD_CONTENT_LIMIT :: cs),
      m.length ≤ DISCORD_CONTENT_LIMIT := by
  by_cases h : rest1 = []
  · simp [h]
  · rw [if_neg h]
    cases hch : chunk_text_by_paragraph rest1 DISCORD_CONTENT_LIMIT with
    | nil => simp
    | cons c0 cs =>
      intro m hm
      rcases List.mem_cons.mp hm with h2 | h2
      · rw [h2]
        exact truncate_length_le _ _ (by decide)
      · have hmm : m ∈ chunk_text_by_paragraph rest1 DISCORD_CONTENT_LIMIT := by
          rw [hch]
          exact List.mem_cons_of_mem _ h2
        exact chunk_text_le (by decide) m hmm

/-- C3: every emitted segment respects its transport limit — the embed
title is at most 256 characters, the embed description at most 4096, and
every overflow content message at most 2000. -/
theorem segment_bounds (title url body category date : Str) :
    (build_embed_and_overflow_messages title url body category
      date).1.title.length ≤ 256 ∧
    (build_embed_and_overflow_messages title url body category
      date).1.description.length ≤ 4096 ∧
    ((build_embed_and_overflow_messages title url body category date).2.all
      (fun m => m.length ≤ DISCORD_CONTENT_LIMIT)) = true := by
  simp only [build_embed_and_overflow_messages]
  refine ⟨?_, ?_, ?_⟩
  · exact truncate_length_le (some title) EMBED_TITLE_LIMIT (by decide)
  · exact truncate_length_le _ EMBED_DESC_LIMIT_HARD (by decide)
  · rw [List.all_eq_true]
    intro m hm
    simp only [decide_eq_true_eq]
    exact overflow_msgs_le _ m hm

theorem pyRstripBy_length_le (q : Char → Bool) (s : Str) :
    (pyRstripBy q s).length ≤ s.length :=
  List.IsPrefix.length_le (pyRstripBy_front s)

theorem pyStrip_length_le (s : Str) : (pyStrip s).length ≤ s.length := by
  rw [pyStrip]
  calc (pyRstripBy isPySpace (pyLstripBy isPySpace s)).length
      ≤ (pyLstripBy isPySpace s).length :=
        pyRstripBy_length_le isPySpace (pyLstripBy isPySpace s)
    _ ≤ s.length := (List.dropWhile_sublist isPySpace).length_le

/-- `truncate` is the identity on inputs within the limit. -/
theorem truncate_of_le {s : Str} {limit : Nat} (h : s.length ≤ limit) :
    truncate (some s) limit = s := by
  rw [truncate]
  by_cases hs : s = []
  · simp [hs]
  · simp [hs, h]

theorem joinNN_append_singleton_length (acc : List Str) (p : Str) :
    (joinNN (acc ++ [p])).length =
      (joinNN acc).length + (if acc = [] then 0 else 2) + p.length := by
  by_cases h : acc = []
  · subst h
    simp [joinNN]
  · rw [joinNN_append h (by simp)]
    simp only [if_neg h]
    simp [joinNN, nn]
    omega

theorem greedyAcc_len (lim : Nat) : ∀ (ps acc : List Str) (cur : Nat),
    cur = (joinNN acc).length → cur ≤ lim →
    (joinNN (greedyAcc lim ps acc cur)).length ≤ lim := by
  intro ps
  induction ps with
  | nil =>
    intro acc cur hcur hle
    rw [greedyAcc]
    omega
  | cons p rest ih =>
    intro acc cur hcur hle
    rw [greedyAcc]
    by_cases hc : cur + (p.length + (if acc = [] then 0 else 2)) ≤ lim
    · rw [if_pos hc]
      apply ih
      · rw [joinNN_append_singleton_length]
        omega
      · exact hc
    · rw [if_neg hc]
      omega

/-- The embed part returned by `split_for_embed` never exceeds the limit. -/
theorem split_for_embed_fst_le (body : Str) (lim : Nat) :
    (split_for_embed body lim).1.length ≤ lim := by
  rw [split_for_embed]
  by_cases h0 : pyStrip body = []
  · simp [h0]
  · rw [if_neg h0]
    by_cases h1 : (pyStrip body).length ≤ lim
    · simpa [h1] using h1
    · rw [if_neg h1]
      set paras := ((splitOnSep nn (pyStrip body)).map pyStrip).filter
        (fun p => p ≠ []) with hparas
      by_cases h2 : greedyAcc lim paras [] 0 ≠ []
      · rw [if_pos h2]
        calc (pyStrip (joinNN (greedyAcc lim paras [] 0))).length
            ≤ (joinNN (greedyAcc lim paras [] 0)).length := pyStrip_length_le _
          _ ≤ lim := greedyAcc_len lim paras [] 0 (by simp [joinNN]) (by omega)
      · rw [if_neg h2]
        simp

/-- The footer-appending step of `parse_post` in `src/notify_bokuao.py`:
`footer_line = f"{author} / {date}"` is appended, after a blank line, to the
rstripped body only when it is not already a substring of the body. -/
def parse_post_footer (body author date : Str) : Str :=
  let footer_line := author ++ (' ' :: '/' :: ' ' :: []) ++ date
  if containsSub body footer_line then body
  else pyRstrip body ++ nn ++ footer_line

/-- C6 (amended): `parse_post` appends the footer only when absent — then
the delivered body ends with the footer; a body already containing the
footer verbatim anywhere is left entirely unchanged (so the footer is never
duplicated, but the delivered text then need not end with it). The embed
description built by `build_embed_and_overflow_messages` always ends with
its footer line (whose length never exceeds 3998 in practice). -/
theorem footer_append_amended (body author date : Str)
    (title url body2 category date2 : Str) :
    (containsSub body (author ++ (' ' :: '/' :: ' ' :: []) ++ date) = true →
      parse_post_footer body author date = body) ∧
    (containsSub body (author ++ (' ' :: '/' :: ' ' :: []) ++ date) = false →
      parse_post_footer body author date =
        pyRstrip body ++ nn ++ (author ++ (' ' :: '/' :: ' ' :: []) ++ date) ∧
      ((author ++ (' ' :: '/' :: ' ' :: []) ++ date)).isSuffixOf
        (parse_post_footer body author date) = true) ∧
    ((pyStrip (category ++ (' ' :: '/' :: ' ' :: []) ++ date2)).length ≤ 3998 →
      (pyStrip (category ++ (' ' :: '/' :: ' ' :: []) ++ date2)).isSuffixOf
        (build_embed_and_overflow_messages title url body2 category
          date2).1.description = true) := by
  refine ⟨?_, ?_, ?_⟩
  · intro h
    rw [parse_post_footer]
    simp only [h]
    rfl
  · intro h
    rw [parse_post_footer]
    simp only [h]
    refine ⟨by simp, ?_⟩
    simp only [Bool.false_eq_true, if_false]
    apply List.isSuffixOf_iff_suffix.mpr
    have h1 := List.suffix_append (pyRstrip body ++ nn)
      (author ++ (' ' :: '/' :: ' ' :: []) ++ date)
    simpa [List.append_assoc] using h1
  · intro hfl
    simp only [build_embed_and_overflow_messages]
    set fl := pyStrip (category ++ (' ' :: '/' :: ' ' :: []) ++ date2) with hfl2
    by_cases hfe : fl = []
    · simp only [hfe]
      apply List.isSuffixOf_iff_suffix.mpr
      exact List.nil_suffix
    · simp only [if_neg hfe]
      by_cases hb : pyStrip (split_for_embed (pyStrip body2)
          (EMBED_DESC_LIMIT_SOFT - (2 + fl.length))).1 ≠ []
      · rw [if_pos hb]
        have hlim := split_for_embed_fst_le (pyStrip body2)
          (EMBED_DESC_LIMIT_SOFT - (2 + fl.length))
        have h2 := pyRstripBy_length_le isPySpace (split_for_embed
          (pyStrip body2) (EMBED_DESC_LIMIT_SOFT - (2 + fl.length))).1
        have hlen : (pyRstrip (split_for_embed (pyStrip body2)
            (EMBED_DESC_LIMIT_SOFT - (2 + fl.length))).1 ++
            (nn ++ fl)).length ≤ EMBED_DESC_LIMIT_HARD := by
          simp only [pyRstrip, EMBED_DESC_LIMIT_SOFT, EMBED_DESC_LIMIT_HARD,
            nn, List.length_append, List.length_cons, List.length_nil]
            at hlim h2 ⊢
          omega
        rw [truncate_of_le hlen]
        apply List.isSuffixOf_iff_suffix.mpr
        exact (List.suffix_append nn fl).trans (List.suffix_append _ _)
      · rw [if_neg hb]
        have hlen : fl.length ≤ EMBED_DESC_LIMIT_HARD := by
          simp only [EMBED_DESC_LIMIT_HARD]
          omega
        rw [truncate_of_le hlen]
        exact List.isSuffixOf_iff_suffix.mpr (List.suffix_refl fl)

/-- C6 counterexample: a body already containing the footer mid-text is left
unchanged, so the delivered text does not end with the footer — the claim
that the delivered text always ends with the footer line is false. -/
theorem footer_append_cex :
    parse_post_footer ("A / D\nx".toList) ("A".toList) ("D".toList) =
      "A / D\nx".toList ∧
    (("A".toList ++ (' ' :: '/' :: ' ' :: []) ++ "D".toList)).isSuffixOf
      (parse_post_footer ("A / D\nx".toList) ("A".toList) ("D".toList)) =
      false := by
  constructor
  · decide
  · decide

/-- C6 witness for the amended theorem at a concrete input. -/
theorem footer_append_amended_witness :
    parse_post_footer ("b".toList) ("A".toList) ("D".toList) =
      pyRstrip ("b".toList) ++ nn ++
        ("A".toList ++ (' ' :: '/' :: ' ' :: []) ++ "D".toList) ∧
    (pyStrip ("C".toList ++ (' ' :: '/' :: ' ' :: []) ++ "D".toList)).isSuffixOf
      (build_embed_and_overflow_messages ("t".toList) ("u".toList)
        ("b".toList) ("C".toList) ("D".toList)).1.description = true :=
  ⟨((footer_append_amended ("b".toList) ("A".toList) ("D".toList) ("t".toList)
      ("u".toList) ("b".toList) ("C".toList) ("D".toList)).2.1 (by decide)).1,
   (footer_append_amended ("b".toList) ("A".toList) ("D".toList) ("t".toList)
      ("u".toList) ("b".toList) ("C".toList) ("D".toList)).2.2 (by decide)⟩

/-- An HTTP response as seen by the image resolvers: status code, declared
content type (`""` when the header is missing) and payload bytes. -/
structure HttpResp where
  status : Nat
  ctype : Str
  content : List Nat
deriving DecidableEq

/-- Python `str.lower()` (the content types handled are ASCII). -/
def pyLower (s : Str) : Str := s.map Char.toLower

/-- Python `f"{i:02d}"`. -/
def pad2 (i : Nat) : Str :=
  if i < 10 then '0' :: Nat.toDigits 10 i else Nat.toDigits 10 i

/-- The loop of `download_images` in `src/bokuao_news.py`, with `i` the
1-based `enumerate` counter. Network effects are an oracle from locator to
`none` (transport exception) or a response; `raise_for_status` on a status
≥ 400 raises, is caught by the `except`, and skips the image. -/
def dlLoopNews (respOf : Str → Option HttpResp) : Nat → List Str →
    List (Str × List Nat)
  | _, [] => []
  | i, u :: rest =>
    match respOf u with
    | none => dlLoopNews respOf (i + 1) rest
    | some r =>
      if 400 ≤ r.status then dlLoopNews respOf (i + 1) rest
      else if !(("image/jpeg".toList).isPrefixOf (pyLower r.ctype)) then
        dlLoopNews respOf (i + 1) rest
      else if MAX_IMAGE_BYTES < r.content.length then
        dlLoopNews respOf (i + 1) rest
      else ("news_image_".toList ++ pad2 i ++ ".jpg".toList, r.content) ::
        dlLoopNews respOf (i + 1) rest

/-- `download_images` of `src/bokuao_news.py`: JPEG-typed responses only,
size-capped, sequentially named. -/
def download_images (respOf : Str → Option HttpResp) (urls : List Str) :
    List (Str × List Nat) :=
  dlLoopNews respOf 1 urls

/-- The loop of `download_images` in `src/notify_bokuao.py` (identical to
the news variant except for the filename prefix). -/
def dlLoopBlog (respOf : Str → Option HttpResp) : Nat → List Str →
    List (Str × List Nat)
  | _, [] => []
  | i, u :: rest =>
    match respOf u with
    | none => dlLoopBlog respOf (i + 1) rest
    | some r =>
      if 400 ≤ r.status then dlLoopBlog respOf (i + 1) rest
      else if !(("image/jpeg".toList).isPrefixOf (pyLower r.ctype)) then
        dlLoopBlog respOf (i + 1) rest
      else if MAX_IMAGE_BYTES < r.content.length then
        dlLoopBlog respOf (i + 1) rest
      else ("image_".toList ++ pad2 i ++ ".jpg".toList, r.content) ::
        dlLoopBlog respOf (i + 1) rest

/-- `download_images` of `src/notify_bokuao.py`. -/
def download_images_blog (respOf : Str → Option HttpResp) (urls : List Str) :
    List (Str × List Nat) :=
  dlLoopBlog respOf 1 urls

/-- The `path` component of `urllib.parse.urlparse` for the plain
`scheme://host/path` locators this program handles: the part after the
host, cut at `?` or `#`. -/
def urlPath (u : Str) : Str :=
  let rest :=
    match findSub u ("://".toList) with
    | some i => (u.drop (i + 3)).dropWhile (fun c => !(c = '/'))
    | none => u
  rest.takeWhile (fun c => !(c = '?' || c = '#'))

/-- The extension component of `os.path.splitext`: the suffix of the last
path component from its last dot, ignoring leading dots. -/
def splitextExt (path : Str) : Str :=
  let base := (path.reverse.takeWhile (fun c => !(c = '/'))).reverse
  let k := (base.takeWhile (fun c => c = '.')).length
  let rest := base.drop k
  if rest.contains '.' then
    '.' :: (rest.reverse.takeWhile (fun c => !(c = '.'))).reverse
  else []

/-- `ALLOWED_EXT` of `src/notify_bokuao_news.py`. -/
def ALLOWED_EXT_NN : List Str :=
  [".jpg".toList, ".jpeg".toList, ".png".toList, ".webp".toList,
   ".gif".toList]

/-- The loop of `download_images` in `src/notify_bokuao_news.py`: no
content-type check at all — only the size cap; the extension is taken from
the locator path (defaulting to `.jpg`). -/
def dlLoopNN (respOf : Str → Option HttpResp) : Nat → List Str →
    List (Str × List Nat)
  | _, [] => []
  | i, u :: rest =>
    match respOf u with
    | none => dlLoopNN respOf (i + 1) rest
    | some r =>
      if 400 ≤ r.status then dlLoopNN respOf (i + 1) rest
      else if MAX_IMAGE_BYTES < r.content.length then
        dlLoopNN respOf (i + 1) rest
      else
        let ext0 := pyLower (splitextExt (urlPath u))
        let ext1 := if ext0 = [] then ".jpg".toList else ext0
        let ext := if ext1 ∈ ALLOWED_EXT_NN then ext1 else ".jpg".toList
        ("news_image_".toList ++ pad2 i ++ ext, r.content) ::
          dlLoopNN respOf (i + 1) rest

/-- `download_images` of `src/notify_bokuao_news.py`. -/
def download_images_nn (respOf : Str → Option HttpResp) (urls : List Str) :
    List (Str × List Nat) :=
  dlLoopNN respOf 1 urls

theorem dlLoopNews_ctype (respOf : Str → Option HttpResp) : ∀ (urls : List Str)
    (i : Nat) (fn : Str) (d : List Nat), (fn, d) ∈ dlLoopNews respOf i urls →
    ∃ u r, u ∈ urls ∧ respOf u = some r ∧ r.status < 400 ∧
      ("image/jpeg".toList).isPrefixOf (pyLower r.ctype) = true ∧
      d = r.content := by
  intro urls
  induction urls with
  | nil =>
    intro i fn d h
    rw [dlLoopNews] at h
    simp at h
  | cons u rest ih =>
    intro i fn d h
    rw [dlLoopNews] at h
    split at h
    · obtain ⟨v, r, hv, hrest⟩ := ih (i + 1) fn d h
      exact ⟨v, r, List.mem_cons_of_mem u hv, hrest⟩
    · rename_i r hr
      split at h
      · obtain ⟨v, r2, hv, hrest⟩ := ih (i + 1) fn d h
        exact ⟨v, r2, List.mem_cons_of_mem u hv, hrest⟩
      · rename_i h4
        split at h
        · obtain ⟨v, r2, hv, hrest⟩ := ih (i + 1) fn d h
          exact ⟨v, r2, List.mem_cons_of_mem u hv, hrest⟩
        · rename_i hct
          split at h
          · obtain ⟨v, r2, hv, hrest⟩ := ih (i + 1) fn d h
            exact ⟨v, r2, List.mem_cons_of_mem u hv, hrest⟩
          · rcases List.mem_cons.mp h with h2 | h2
            · refine ⟨u, r, by simp, hr, by omega, ?_, ?_⟩
              · simpa using hct
              · have := congrArg Prod.snd h2
                simpa using this
            · obtain ⟨v, r2, hv, hrest⟩ := ih (i + 1) fn d h2
              exact ⟨v, r2, List.mem_cons_of_mem u hv, hrest⟩

theorem dlLoopBlog_ctype (respOf : Str → Option HttpResp) : ∀ (urls : List Str)
    (i : Nat) (fn : Str) (d : List Nat), (fn, d) ∈ dlLoopBlog respOf i urls →
    ∃ u r, u ∈ urls ∧ respOf u = some r ∧ r.status < 400 ∧
      ("image/jpeg".toList).isPrefixOf (pyLower r.ctype) = true ∧
      d = r.content := by
  intro urls
  induction urls with
  | nil =>
    intro i fn d h
    rw [dlLoopBlog] at h
    simp at h
  | cons u rest ih =>
    intro i fn d h
    rw [dlLoopBlog] at h
    split at h
    · obtain ⟨v, r, hv, hrest⟩ := ih (i + 1) fn d h
      exact ⟨v, r, List.mem_cons_of_mem u hv, hrest⟩
    · rename_i r hr
      split at h
      · obtain ⟨v, r2, hv, hrest⟩ := ih (i + 1) fn d h
        exact ⟨v, r2, List.mem_cons_of_mem u hv, hrest⟩
      · rename_i h4
        split at h
        · obtain ⟨v, r2, hv, hrest⟩ := ih (i + 1) fn d h
          exact ⟨v, r2, List.mem_cons_of_mem u hv, hrest⟩
        · rename_i hct
          split at h
          · obtain ⟨v, r2, hv, hrest⟩ := ih (i + 1) fn d h
            exact ⟨v, r2, List.mem_cons_of_mem u hv, hrest⟩
          · rcases List.mem_cons.mp h with h2 | h2
            · refine ⟨u, r, by simp, hr, by omega, ?_, ?_⟩
              · simpa using hct
              · have := congrArg Prod.snd h2
                simpa using this
            · obtain ⟨v, r2, hv, hrest⟩ := ih (i + 1) fn d h2
              exact ⟨v, r2, List.mem_cons_of_mem u hv, hrest⟩

/-- C7 (amended): in the resolvers of `src/bokuao_news.py` and
`src/notify_bokuao.py`, every attachment in the returned batch comes from a
response whose declared content type starts with `image/jpeg` — so a `.jpg`
locator served as `text/html` is excluded regardless of its extension. The
resolver of `src/notify_bokuao_news.py` performs no content-type check (see
the counterexample). -/
theorem image_spoof_amended (respOf : Str → Option HttpResp)
    (urls : List Str) :
    (∀ fn d, (fn, d) ∈ download_images respOf urls →
      ∃ u r, u ∈ urls ∧ respOf u = some r ∧ r.status < 400 ∧
        ("image/jpeg".toList).isPrefixOf (pyLower r.ctype) = true ∧
        d = r.content) ∧
    (∀ fn d, (fn, d) ∈ download_images_blog respOf urls →
      ∃ u r, u ∈ urls ∧ respOf u = some r ∧ r.status < 400 ∧
        ("image/jpeg".toList).isPrefixOf (pyLower r.ctype) = true ∧
        d = r.content) :=
  ⟨fun fn d h => dlLoopNews_ctype respOf urls 1 fn d h,
   fun fn d h => dlLoopBlog_ctype respOf urls 1 fn d h⟩

/-- C7 counterexample: the resolver of `src/notify_bokuao_news.py` keeps a
locator ending in `.jpg` even though the response content type is
`text/html` — the attachment batch is not empty, contradicting the claimed
exclusion. -/
theorem image_spoof_cex :
    download_images_nn
      (fun _ => some ⟨200, "text/html".toList, [1]⟩)
      ("http://h/a.jpg".toList :: []) =
      [("news_image_01.jpg".toList, [1])] := by
  decide

/-- C7 witness for the amended theorem at a concrete input. -/
theorem image_spoof_amended_witness :
    ∃ u r, u ∈ ["u".toList] ∧
      (fun _ : Str => some (⟨200, "image/jpeg".toList, [1]⟩ : HttpResp))
        u = some r ∧ r.status < 400 ∧
      ("image/jpeg".toList).isPrefixOf (pyLower r.ctype) = true ∧
      ([1] : List Nat) = r.content :=
  (image_spoof_amended
      (fun _ => some ⟨200, "image/jpeg".toList, [1]⟩) ["u".toList]).1
    ("news_image_01.jpg".toList) [1] (by decide)

/-- Outcome of a delivery call of `webhook_post_json` in
`src/bokuao_news.py`: success at some attempt, or the terminal
`RuntimeError` carrying the last observed status and truncated body. -/
inductive PostOutcome where
  | ok (attempt : Nat)
  | err (lastStatus : Option Nat) (lastBody : Option Str)
deriving DecidableEq

/-- Is an attempt's response (`none` = transport exception) a 2xx success? -/
def is2xx : Option (Nat × Str) → Bool
  | some (st, _) => 200 ≤ st && st < 300
  | none => false

/-- The `for attempt in range(1, 6)` retry loop of `webhook_post_json` in
`src/bokuao_news.py`. The oracle maps an attempt number to `none` (a
`requests` exception) or to the response status and body; the second
result component collects the `time.sleep` durations (`2.0 * attempt`
seconds, recorded as `2 * attempt`). A 2xx returns at once; a 5xx records
the status and the body truncated to 1200 characters, sleeps and retries;
`raise_for_status` on a 4xx raises, is caught by the `except`, sleeps and
retries; any other status falls through to the next attempt without
sleeping; a transport exception sleeps and retries without recording a
status. After attempt 5 the terminal error carries the last recorded
status and truncated body. -/
def webhookLoop (respOf : Nat → Option (Nat × Str)) :
    Nat → Option Nat → Option Str → List Nat → PostOutcome × List Nat
  | attempt, ls, lb, sleeps =>
    if h5 : 5 < attempt then (.err ls lb, sleeps)
    else
      match respOf attempt with
      | none =>
        webhookLoop respOf (attempt + 1) ls lb (sleeps ++ [2 * attempt])
      | some (st, body) =>
        if 200 ≤ st ∧ st < 300 then (.ok attempt, sleeps)
        else
          if 500 ≤ st ∧ st < 600 then
            webhookLoop respOf (attempt + 1) (some st)
              (some (body.take 1200)) (sleeps ++ [2 * attempt])
          else if 400 ≤ st then
            webhookLoop respOf (attempt + 1) (some st)
              (some (body.take 1200)) (sleeps ++ [2 * attempt])
          else
            webhookLoop respOf (attempt + 1) (some st)
              (some (body.take 1200)) sleeps
termination_by attempt => 6 - attempt
decreasing_by all_goals omega

/-- `webhook_post_json` of `src/bokuao_news.py`. -/
def webhook_post_json (respOf : Nat → Option (Nat × Str)) :
    PostOutcome × List Nat :=
  webhookLoop respOf 1 none none []

/-- Outcome of `webhook_post_json` in `src/notify_bokuao.py`: a single
`requests.post` followed by `raise_for_status` — success, or a raised
exception (the status for an HTTP error, `none` for transport errors). -/
inductive NbOutcome where
  | ok
  | raised (status : Option Nat)
deriving DecidableEq

/-- `webhook_post_json` of `src/notify_bokuao.py`; the second component is
the number of attempts made — always 1, there is no retry loop. -/
def nb_webhook_post_json (respOf : Nat → Option (Nat × Str)) :
    NbOutcome × Nat :=
  match respOf 1 with
  | none => (.raised none, 1)
  | some (st, _) => if 400 ≤ st then (.raised (some st), 1) else (.ok, 1)

theorem webhookLoop_sleeps_mono (respOf : Nat → Option (Nat × Str)) :
    ∀ (n a : Nat), 6 - a ≤ n → ∀ ls lb sl x, x ∈ sl →
    x ∈ (webhookLoop respOf a ls lb sl).2 := by
  intro n
  induction n with
  | zero =>
    intro a ha ls lb sl x hx
    rw [webhookLoop, dif_pos (by omega)]
    exact hx
  | succ n ih =>
    intro a ha ls lb sl x hx
    rw [webhookLoop]
    by_cases h5 : 5 < a
    · rw [dif_pos h5]
      exact hx
    · rw [dif_neg h5]
      split
      · exact ih (a + 1) (by omega) _ _ _ x (by simp [hx])
      · rename_i st body heq
        by_cases h2 : 200 ≤ st ∧ st < 300
        · rw [if_pos h2]
          exact hx
        · rw [if_neg h2]
          by_cases hs5 : 500 ≤ st ∧ st < 600
          · rw [if_pos hs5]
            exact ih (a + 1) (by omega) _ _ _ x (by simp [hx])
          · rw [if_neg hs5]
            by_cases h4 : 400 ≤ st
            · rw [if_pos h4]
              exact ih (a + 1) (by omega) _ _ _ x (by simp [hx])
            · rw [if_neg h4]
              exact ih (a + 1) (by omega) _ _ _ x hx

theorem webhookLoop_ok (respOf : Nat → Option (Nat × Str)) :
    ∀ (n a : Nat), 6 - a ≤ n → ∀ ls lb sl k,
    (webhookLoop respOf a ls lb sl).1 = .ok k →
    a ≤ k ∧ k ≤ 5 ∧ is2xx (respOf k) = true ∧
      ∀ j, a ≤ j → j < k → is2xx (respOf j) = false := by
  intro n
  induction n with
  | zero =>
    intro a ha ls lb sl k h
    rw [webhookLoop, dif_pos (by omega)] at h
    cases h
  | succ n ih =>
    intro a ha ls lb sl k h
    rw [webhookLoop] at h
    by_cases h5 : 5 < a
    · rw [dif_pos h5] at h
      cases h
    · rw [dif_neg h5] at h
      split at h
      · rename_i heq
        obtain ⟨h1, h2, h3, h4⟩ := ih (a + 1) (by omega) _ _ _ k h
        refine ⟨by omega, h2, h3, ?_⟩
        intro j hj1 hj2
        rcases Nat.eq_or_lt_of_le hj1 with he | hlt
        · rw [← he, heq]
          rfl
        · exact h4 j (by omega) hj2
      · rename_i st body heq
        by_cases h2 : 200 ≤ st ∧ st < 300
        · rw [if_pos h2] at h
          injection h with hk
          subst hk
          refine ⟨le_refl a, by omega, ?_, ?_⟩
          · rw [heq]
            simp [is2xx]
            omega
          · intro j hj1 hj2
            omega
        · rw [if_neg h2] at h
          have hnot : is2xx (respOf a) = false := by
            rw [heq]
            simp only [is2xx, Bool.and_eq_true, decide_eq_true_eq]
            simp only [Bool.and_eq_false_iff]
            by_cases hc : 200 ≤ st
            · right
              simp only [decide_eq_false_iff_not]
              omega
            · left
              simp only [decide_eq_false_iff_not]
              omega
          have step : ∀ ls2 lb2 sl2,
              (webhookLoop respOf (a + 1) ls2 lb2 sl2).1 = .ok k →
              a ≤ k ∧ k ≤ 5 ∧ is2xx (respOf k) = true ∧
                ∀ j, a ≤ j → j < k → is2xx (respOf j) = false := by
            intro ls2 lb2 sl2 hh
            obtain ⟨g1, g2, g3, g4⟩ := ih (a + 1) (by omega) _ _ _ k hh
            refine ⟨by omega, g2, g3, ?_⟩
            intro j hj1 hj2
            rcases Nat.eq_or_lt_of_le hj1 with he | hlt
            · rw [← he]
              exact hnot
            · exact g4 j (by omega) hj2
          by_cases hs5 : 500 ≤ st ∧ st < 600
          · rw [if_pos hs5] at h
            exact step _ _ _ h
          · rw [if_neg hs5] at h
            by_cases h4 : 400 ≤ st
            · rw [if_pos h4] at h
              exact step _ _ _ h
            · rw [if_neg h4] at h
              exact step _ _ _ h

theorem webhookLoop_5xx_sleep (respOf : Nat → Option (Nat × Str)) :
    ∀ (n a : Nat), 6 - a ≤ n → ∀ ls lb sl k st b, a ≤ k → k ≤ 5 →
    (∀ j, a ≤ j → j < k → is2xx (respOf j) = false) →
    respOf k = some (st, b) → 500 ≤ st → st < 600 →
    2 * k ∈ (webhookLoop respOf a ls lb sl).2 := by
  intro n
  induction n with
  | zero =>
    intro a ha ls lb sl k st b hak hk5
    omega
  | succ n ih =>
    intro a ha ls lb sl k st b hak hk5 hpre hk h500 h600
    rw [webhookLoop, dif_neg (by omega)]
    rcases Nat.eq_or_lt_of_le hak with he | hlt
    · subst he
      split
      · rename_i heq
        rw [hk] at heq
        cases heq
      · rename_i st2 body2 heq
        rw [hk] at heq
        injection heq with hp
        injection hp with he1 he2
        subst he1
        subst he2
        rw [if_neg (by omega)]
        rw [if_pos (by omega)]
        exact webhookLoop_sleeps_mono respOf n (a + 1) (by omega) _ _ _ _
          (by simp)
    · split
      · exact ih (a + 1) (by omega) _ _ _ k st b (by omega) hk5
          (fun j hj1 hj2 => hpre j (by omega) hj2) hk h500 h600
      · rename_i st2 body2 heq
        have hnot : is2xx (respOf a) = false := hpre a (le_refl a) hlt
        rw [heq] at hnot
        simp only [is2xx, Bool.and_eq_false_iff, decide_eq_false_iff_not]
          at hnot
        rw [if_neg (by
          intro hc
          rcases hnot with hx | hx
          · exact hx hc.1
          · exact hx hc.2)]
        have tailstep : ∀ ls2 lb2 sl2, 2 * k ∈
            (webhookLoop respOf (a + 1) ls2 lb2 sl2).2 :=
          fun ls2 lb2 sl2 => ih (a + 1) (by omega) _ _ _ k st b (by omega)
            hk5 (fun j hj1 hj2 => hpre j (by omega) hj2) hk h500 h600
        by_cases hs5 : 500 ≤ st2 ∧ st2 < 600
        · rw [if_pos hs5]
          exact tailstep _ _ _
        · rw [if_neg hs5]
          by_cases h4 : 400 ≤ st2
          · rw [if_pos h4]
            exact tailstep _ _ _
          · rw [if_neg h4]
            exact tailstep _ _ _

theorem webhookLoop_none_run (respOf : Nat → Option (Nat × Str)) :
    ∀ (n a : Nat), 6 - a ≤ n →
    (∀ j, a ≤ j → j ≤ 5 → respOf j = none) → ∀ ls lb sl,
    (webhookLoop respOf a ls lb sl).1 = .err ls lb := by
  intro n
  induction n with
  | zero =>
    intro a ha hnone ls lb sl
    rw [webhookLoop, dif_pos (by omega)]
  | succ n ih =>
    intro a ha hnone ls lb sl
    rw [webhookLoop]
    by_cases h5 : 5 < a
    · rw [dif_pos h5]
    · rw [dif_neg h5]
      rw [hnone a (le_refl a) (by omega)]
      exact ih (a + 1) (by omega) (fun j hj1 hj2 => hnone j (by omega) hj2)
        _ _ _

theorem webhookLoop_exhaust (respOf : Nat → Option (Nat × Str)) :
    ∀ (n a : Nat), 6 - a ≤ n →
    (∀ j, a ≤ j → j ≤ 5 → is2xx (respOf j) = false) →
    ∀ m st b, a ≤ m → m ≤ 5 → respOf m = some (st, b) →
    (∀ j, m < j → j ≤ 5 → respOf j = none) → ∀ ls lb sl,
    (webhookLoop respOf a ls lb sl).1 =
      .err (some st) (some (b.take 1200)) := by
  intro n
  induction n with
  | zero =>
    intro a ha h2xx m st b ham hm5
    omega
  | succ n ih =>
    intro a ha h2xx m st b ham hm5 hm hafter ls lb sl
    rw [webhookLoop, dif_neg (by omega)]
    rcases Nat.eq_or_lt_of_le ham with he | hlt
    · subst he
      split
      · rename_i heq
        rw [hm] at heq
        cases heq
      · rename_i st2 body2 heq
        rw [hm] at heq
        injection heq with hp
        injection hp with he1 he2
        subst he1
        subst he2
        have hnot := h2xx a (le_refl a) (by omega)
        rw [hm] at hnot
        simp only [is2xx, Bool.and_eq_false_iff, decide_eq_false_iff_not]
          at hnot
        rw [if_neg (by
          intro hc
          rcases hnot with hx | hx
          · exact hx hc.1
          · exact hx hc.2)]
        have tail : ∀ sl2, (webhookLoop respOf (a + 1) (some st)
            (some (b.take 1200)) sl2).1 =
            .err (some st) (some (b.take 1200)) :=
          fun sl2 => webhookLoop_none_run respOf n (a + 1) (by omega)
            (fun j hj1 hj2 => hafter j (by omega) hj2) _ _ _
        by_cases hs5 : 500 ≤ st ∧ st < 600
        · rw [if_pos hs5]
          exact tail _
        · rw [if_neg hs5]
          by_cases h4 : 400 ≤ st
          · rw [if_pos h4]
            exact tail _
          · rw [if_neg h4]
            exact tail _
    · have step : ∀ ls2 lb2 sl2, (webhookLoop respOf (a + 1) ls2 lb2 sl2).1 =
          .err (some st) (some (b.take 1200)) :=
        fun ls2 lb2 sl2 => ih (a + 1) (by omega)
          (fun j hj1 hj2 => h2xx j (by omega) hj2) m st b (by omega) hm5 hm
          hafter _ _ _
      split
      · exact step _ _ _
      · rename_i st2 body2 heq
        have hnot := h2xx a (le_refl a) (by omega)
        rw [heq] at hnot
        simp only [is2xx, Bool.and_eq_false_iff, decide_eq_false_iff_not]
          at hnot
        rw [if_neg (by
          intro hc
          rcases hnot with hx | hx
          · exact hx hc.1
          · exact hx hc.2)]
        by_cases hs5 : 500 ≤ st2 ∧ st2 < 600
        · rw [if_pos hs5]
          exact step _ _ _
        · rw [if_neg hs5]
          by_cases h4 : 400 ≤ st2
          · rw [if_pos h4]
            exact step _ _ _
          · rw [if_neg h4]
            exact step _ _ _

theorem webhookLoop_agree : ∀ (n a : Nat), 6 - a ≤ n →
    ∀ (o o2 : Nat → Option (Nat × Str)),
    (∀ j, a ≤ j → j ≤ 5 → o j = o2 j) → ∀ ls lb sl,
    webhookLoop o a ls lb sl = webhookLoop o2 a ls lb sl := by
  intro n
  induction n with
  | zero =>
    intro a ha o o2 hagree ls lb sl
    have e1 : webhookLoop o a ls lb sl = (.err ls lb, sl) := by
      rw [webhookLoop, dif_pos (by omega)]
    have e2 : webhookLoop o2 a ls lb sl = (.err ls lb, sl) := by
      rw [webhookLoop, dif_pos (by omega)]
    rw [e1, e2]
  | succ n ih =>
    intro a ha o o2 hagree ls lb sl
    by_cases h5 : 5 < a
    · have e1 : webhookLoop o a ls lb sl = (.err ls lb, sl) := by
        rw [webhookLoop, dif_pos h5]
      have e2 : webhookLoop o2 a ls lb sl = (.err ls lb, sl) := by
        rw [webhookLoop, dif_pos h5]
      rw [e1, e2]
    · conv_lhs => rw [webhookLoop]
      conv_rhs => rw [webhookLoop]
      rw [dif_neg h5]
      rw [dif_neg h5]
      rw [hagree a (le_refl a) (by omega)]
      have hrec := fun ls2 lb2 sl2 => ih (a + 1) (by omega) o o2
        (fun j hj1 hj2 => hagree j (by omega) hj2) ls2 lb2 sl2
      cases o2 a with
      | none => exact hrec _ _ _
      | some p =>
        cases p with
        | mk st body =>
          dsimp only
          by_cases h2 : 200 ≤ st ∧ st < 300
          · rw [if_pos h2, if_pos h2]
          · rw [if_neg h2, if_neg h2]
            by_cases hs5 : 500 ≤ st ∧ st < 600
            · rw [if_pos hs5, if_pos hs5]
              exact hrec _ _ _
            · rw [if_neg hs5, if_neg hs5]
              by_cases h4 : 400 ≤ st
              · rw [if_pos h4, if_pos h4]
                exact hrec _ _ _
              · rw [if_neg h4, if_neg h4]
                exact hrec _ _ _

/-- C4 (amended): the delivery client of `src/bokuao_news.py` makes at most
5 attempts (its result only depends on the responses to attempts 1–5, and a
success happens at an attempt number ≤ 5); it returns on the first 2xx
response; on a 5xx at a reached attempt `k` it sleeps `2 × k` seconds; after
exhausting all 5 attempts without a 2xx it raises the terminal error
carrying the last observed status and the response body truncated to 1200
characters. The client of `src/notify_bokuao.py` (also cited by the claim)
performs a single attempt and raises on any non-2xx without retrying. -/
theorem delivery_retry_amended (respOf o2 : Nat → Option (Nat × Str)) :
    (∀ k, (webhook_post_json respOf).1 = .ok k →
      1 ≤ k ∧ k ≤ 5 ∧ is2xx (respOf k) = true ∧
      ∀ j, 1 ≤ j → j < k → is2xx (respOf j) = false) ∧
    (∀ k st b, 1 ≤ k → k ≤ 5 →
      (∀ j, 1 ≤ j → j < k → is2xx (respOf j) = false) →
      respOf k = some (st, b) → 500 ≤ st → st < 600 →
      2 * k ∈ (webhook_post_json respOf).2) ∧
    ((∀ j, 1 ≤ j → j ≤ 5 → is2xx (respOf j) = false) →
      ∀ m st b, 1 ≤ m → m ≤ 5 → respOf m = some (st, b) →
      (∀ j, m < j → j ≤ 5 → respOf j = none) →
      (webhook_post_json respOf).1 = .err (some st) (some (b.take 1200))) ∧
    ((∀ j, 1 ≤ j → j ≤ 5 → respOf j = o2 j) →
      webhook_post_json respOf = webhook_post_json o2) ∧
    (nb_webhook_post_json respOf).2 = 1 := by
  refine ⟨?_, ?_, ?_, ?_, ?_⟩
  · intro k h
    exact webhookLoop_ok respOf 5 1 (by omega) none none [] k h
  · intro k st b h1 h2 h3 h4 h5 h6
    exact webhookLoop_5xx_sleep respOf 5 1 (by omega) none none [] k st b h1
      h2 h3 h4 h5 h6
  · intro h2xx m st b h1 h2 h3 h4
    exact webhookLoop_exhaust respOf 5 1 (by omega) h2xx m st b h1 h2 h3 h4
      none none []
  · intro hagree
    exact webhookLoop_agree 5 1 (by omega) respOf o2 hagree none none []
  · rw [nb_webhook_post_json]
    split
    · rfl
    · split
      · rfl
      · rfl

/-- C4 counterexample: the delivery client of `src/notify_bokuao.py` gets a
5xx on attempt 1 while attempt 2 would succeed — the claimed retry policy
requires a sleep-and-retry ending in success, but this client raises after
exactly one attempt. -/
theorem delivery_retry_cex :
    nb_webhook_post_json
      (fun a => if a = 1 then some (500, ['e']) else some (200, [])) =
      (.raised (some 500), 1) := by
  decide

/-- C4 witness for the amended theorem at a concrete input: a permanently
failing endpoint exhausts all 5 attempts and raises the terminal error with
the last status and body. -/
theorem delivery_retry_amended_witness :
    (webhook_post_json (fun _ => some (500, ['x']))).1 =
      PostOutcome.err (some 500) (some ['x']) :=
  (delivery_retry_amended (fun _ => some (500, ['x']))
      (fun _ => some (500, ['x']))).2.2.1
    (fun j _ _ => by decide)
    5 500 ['x'] (by omega) (by omega) rfl
    (fun j hj hj5 => absurd hj (by omega))

/-- Lexicographic (code-point) order on strings, as used by Python
`sorted`. -/
def strLe : Str → Str → Bool
  | [], _ => true
  | _ :: _, [] => false
  | a :: as, b :: bs => if a = b then strLe as bs else decide (a < b)

def insertSorted (x : Str) : List Str → List Str
  | [] => [x]
  | y :: t => if strLe x y then x :: y :: t else y :: insertSorted x t

def sortStr : List Str → List Str
  | [] => []
  | x :: t => insertSorted x (sortStr t)

/-- Python `sorted(set(l))`: the distinct elements of `l` in sorted order. -/
def sortedDedup (l : List Str) : List Str := sortStr l.dedup

theorem insertSorted_mem (x : Str) : ∀ (l : List Str) (y : Str),
    y ∈ insertSorted x l ↔ y = x ∨ y ∈ l := by
  intro l
  induction l with
  | nil =>
    intro y
    simp [insertSorted]
  | cons z t ih =>
    intro y
    rw [insertSorted]
    by_cases h : strLe x z = true
    · simp [h]
    · rw [if_neg h]
      simp only [List.mem_cons, ih y]
      tauto

theorem sortStr_mem : ∀ (l : List Str) (y : Str), y ∈ sortStr l ↔ y ∈ l := by
  intro l
  induction l with
  | nil => intro y; rfl
  | cons x t ih =>
    intro y
    rw [sortStr, insertSorted_mem, ih]
    simp

theorem sortedDedup_mem (l : List Str) (y : Str) :
    y ∈ sortedDedup l ↔ y ∈ l := by
  rw [sortedDedup, sortStr_mem, List.mem_dedup]

/-- A listing item as produced by `list_news_items_from_listpage` in
`src/bokuao_news.py`. -/
structure NewsItem where
  date : Str
  category : Str
  title : Str
  url : Str
deriving DecidableEq

/-- The per-item loop of `main` in `src/bokuao_news.py`: already-notified
locators are skipped; otherwise the item is delivered
(`post_news_item_embed_then_overflow_then_images`, recorded here by its
locator) and the locator added to the in-memory notified set. Returns the
delivered locators in order and the final notified set. -/
def newsLoop : List NewsItem → List Str → List Str × List Str
  | [], notified => ([], notified)
  | it :: rest, notified =>
    if it.url ∈ notified then newsLoop rest notified
    else
      let r := newsLoop rest (notified ++ [it.url])
      (it.url :: r.1, r.2)

/-- `main` of `src/bokuao_news.py` with I/O replaced by values: filter the
scanned listing to today's items; with no such item return leaving the
on-disk state untouched; otherwise process each item and persist
`sorted(notified)`. Returns the delivered locators and the persisted
notified list. -/
def runNewsMain (notified : List Str) (items : List NewsItem) (today : Str) :
    List Str × List Str :=
  let todays := items.filter (fun it => it.date = today)
  if todays = [] then ([], notified)
  else
    let r := newsLoop todays notified
    (r.1, sortedDedup r.2)

/-- A blog post as produced by `parse_post` in `src/notify_bokuao.py` (the
fields `main` reads). -/
structure BlogPost where
  url : Str
  author : Str
  date : Str
deriving DecidableEq

/-- `norm` of `src/notify_bokuao.py`: strip, remove spaces, fold the `﨑`
variant to `崎`. -/
def norm_author (s : Str) : Str :=
  ((pyStrip s).filter (fun c => !(c = ' ' || c = '　'))).map
    (fun c => if c = '﨑' then '崎' else c)

/-- The send loop of `main` in `src/notify_bokuao.py`: each selected
`(author_key, post)` is delivered (`post_to_discord_embed_then_images`,
recorded by `(author_key, url)`) and the author's notified list replaced by
`sorted(set ∪ {url})`. The state is the recipient-key-indexed map of
notified locators. -/
def blogLoop : List (Str × BlogPost) → (Str → List Str) →
    List (Str × Str) × (Str → List Str)
  | [], nba => ([], nba)
  | (ak, p) :: rest, nba =>
    let nba2 := fun k => if k = ak then sortedDedup (p.url :: nba ak) else nba k
    let r := blogLoop rest nba2
    ((ak, p.url) :: r.1, r.2)

/-- `main` of `src/notify_bokuao.py` with I/O replaced by values: posts
whose display date is the target date, whose normalised author is a
configured recipient, and whose locator is not yet in that recipient's
notified set are selected; with none, return leaving the on-disk state
untouched; otherwise deliver them in listing order, updating the state.
Returns the deliveries and the final notified map. -/
def runBlogMain (nba : Str → List Str) (posts : List BlogPost)
    (targetDate : Str) (authors : List Str) :
    List (Str × Str) × (Str → List Str) :=
  let targetsN := authors.map norm_author
  let to_send := (posts.filter (fun p => p.date = targetDate ∧
      norm_author p.author ∈ targetsN ∧
      p.url ∉ nba (norm_author p.author))).map
    (fun p => (norm_author p.author, p))
  if to_send = [] then ([], nba)
  else blogLoop to_send nba

theorem newsLoop_skip_all : ∀ (l : List NewsItem) (notified : List Str),
    (∀ it ∈ l, it.url ∈ notified) → newsLoop l notified = ([], notified) := by
  intro l
  induction l with
  | nil => intro notified _; rfl
  | cons it rest ih =>
    intro notified h
    rw [newsLoop, if_pos (h it (by simp))]
    exact ih notified (fun x hx => h x (by simp [hx]))

theorem newsLoop_mono : ∀ (l : List NewsItem) (notified : List Str) (x : Str),
    x ∈ notified → x ∈ (newsLoop l notified).2 := by
  intro l
  induction l with
  | nil => intro notified x hx; exact hx
  | cons it rest ih =>
    intro notified x hx
    rw [newsLoop]
    by_cases h : it.url ∈ notified
    · rw [if_pos h]
      exact ih notified x hx
    · rw [if_neg h]
      exact ih (notified ++ [it.url]) x (by simp [hx])

theorem newsLoop_subset : ∀ (l : List NewsItem) (notified : List Str) (x : Str),
    x ∈ (newsLoop l notified).2 → x ∈ notified ∨ ∃ it ∈ l, x = it.url := by
  intro l
  induction l with
  | nil => intro notified x hx; exact Or.inl hx
  | cons it rest ih =>
    intro notified x hx
    rw [newsLoop] at hx
    by_cases h : it.url ∈ notified
    · rw [if_pos h] at hx
      rcases ih notified x hx with h2 | ⟨j, hj, he⟩
      · exact Or.inl h2
      · exact Or.inr ⟨j, by simp [hj], he⟩
    · rw [if_neg h] at hx
      rcases ih (notified ++ [it.url]) x hx with h2 | ⟨j, hj, he⟩
      · rcases List.mem_append.mp h2 with h3 | h3
        · exact Or.inl h3
        · exact Or.inr ⟨it, by simp, by simpa using h3⟩
      · exact Or.inr ⟨j, by simp [hj], he⟩

theorem newsLoop_adds : ∀ (l : List NewsItem) (notified : List Str)
    (it : NewsItem), it ∈ l → it.url ∈ (newsLoop l notified).2 := by
  intro l
  induction l with
  | nil => intro notified it h; simp at h
  | cons j rest ih =>
    intro notified it h
    rw [newsLoop]
    rcases List.mem_cons.mp h with he | hm
    · subst he
      by_cases hj : it.url ∈ notified
      · rw [if_pos hj]
        exact newsLoop_mono rest notified it.url hj
      · rw [if_neg hj]
        exact newsLoop_mono rest (notified ++ [it.url]) it.url (by simp)
    · by_cases hj : j.url ∈ notified
      · rw [if_pos hj]
        exact ih notified it hm
      · rw [if_neg hj]
        exact ih (notified ++ [j.url]) it hm

theorem blogLoop_mono : ∀ (l : List (Str × BlogPost)) (nba : Str → List Str)
    (k : Str) (x : Str), x ∈ nba k → x ∈ (blogLoop l nba).2 k := by
  intro l
  induction l with
  | nil => intro nba k x hx; exact hx
  | cons e rest ih =>
    intro nba k x hx
    cases e with
    | mk ak p =>
      rw [blogLoop]
      apply ih
      by_cases h : k = ak
      · rw [if_pos h]
        rw [sortedDedup_mem]
        subst h
        simp [hx]
      · rw [if_neg h]
        exact hx

theorem blogLoop_adds : ∀ (l : List (Str × BlogPost)) (nba : Str → List Str)
    (ak : Str) (p : BlogPost), (ak, p) ∈ l →
    p.url ∈ (blogLoop l nba).2 ak := by
  intro l
  induction l with
  | nil => intro nba ak p h; simp at h
  | cons e rest ih =>
    intro nba ak p h
    cases e with
    | mk bk q =>
      rw [blogLoop]
      rcases List.mem_cons.mp h with he | hm
      · injection he with h1 h2
        subst h1
        subst h2
        apply blogLoop_mono
        rw [if_pos rfl, sortedDedup_mem]
        simp
      · exact ih _ ak p hm

theorem runNews_idem (notified : List Str) (items : List NewsItem)
    (today : Str)
    (h : ∀ it ∈ items, it.date = today → it.url ∈ notified) :
    (runNewsMain notified items today).1 = [] ∧
    ∀ x : Str, x ∈ (runNewsMain notified items today).2 ↔ x ∈ notified := by
  simp only [runNewsMain]
  split
  · exact ⟨rfl, fun x => Iff.rfl⟩
  · rename_i ht
    have hall : ∀ it ∈ items.filter (fun it => decide (it.date = today)),
        it.url ∈ notified := by
      intro it hit
      have h2 := List.mem_filter.mp hit
      exact h it h2.1 (by simpa using h2.2)
    rw [newsLoop_skip_all _ _ hall]
    exact ⟨rfl, fun x => sortedDedup_mem notified x⟩

theorem runNews_key (notified : List Str) (items : List NewsItem)
    (today : Str) : ∀ it ∈ items, it.date = today →
    it.url ∈ (runNewsMain notified items today).2 := by
  intro it hit hdate
  simp only [runNewsMain]
  split
  · rename_i ht
    exfalso
    have hmem : it ∈ items.filter (fun it => decide (it.date = today)) :=
      List.mem_filter.mpr ⟨hit, by simp [hdate]⟩
    rw [ht] at hmem
    simp at hmem
  · dsimp only
    rw [sortedDedup_mem]
    apply newsLoop_adds
    exact List.mem_filter.mpr ⟨hit, by simp [hdate]⟩

theorem runNews_second (notified : List Str) (items : List NewsItem)
    (today : Str) :
    (runNewsMain ((runNewsMain notified items today).2) items today).1 = [] ∧
    ∀ x : Str,
      x ∈ (runNewsMain ((runNewsMain notified items today).2) items
        today).2 ↔ x ∈ (runNewsMain notified items today).2 :=
  runNews_idem _ items today
    (fun it hit hdate => runNews_key notified items today it hit hdate)

theorem runBlog_idem (nba : Str → List Str) (posts : List BlogPost)
    (targetDate : Str) (authors : List Str)
    (h : ∀ p ∈ posts, p.date = targetDate →
      norm_author p.author ∈ authors.map norm_author →
      p.url ∈ nba (norm_author p.author)) :
    runBlogMain nba posts targetDate authors = ([], nba) := by
  simp only [runBlogMain]
  split
  · rfl
  · rename_i ht
    exfalso
    apply ht
    rw [List.map_eq_nil, List.filter_eq_nil]
    intro p hp
    simp only [decide_eq_true_eq]
    intro hc
    exact hc.2.2 (h p hp hc.1 hc.2.1)

theorem runBlog_key (nba : Str → List Str) (posts : List BlogPost)
    (targetDate : Str) (authors : List Str) :
    ∀ p ∈ posts, p.date = targetDate →
    norm_author p.author ∈ authors.map norm_author →
    p.url ∈ (runBlogMain nba posts targetDate authors).2
      (norm_author p.author) := by
  intro p hp hdate hmem
  simp only [runBlogMain]
  split
  · rename_i ht
    have hf := List.map_eq_nil.mp ht
    have h2 := List.filter_eq_nil.mp hf p hp
    simp only [decide_eq_true_eq] at h2
    by_contra hno
    exact h2 ⟨hdate, hmem, hno⟩
  · by_cases hin : p.url ∈ nba (norm_author p.author)
    · exact blogLoop_mono _ nba _ _ hin
    · apply blogLoop_adds
      apply List.mem_map_of_mem
      exact List.mem_filter.mpr ⟨hp, by
        simp only [decide_eq_true_eq]
        exact ⟨hdate, hmem, hin⟩⟩

theorem runBlog_second (nba : Str → List Str) (posts : List BlogPost)
    (targetDate : Str) (authors : List Str) :
    runBlogMain ((runBlogMain nba posts targetDate authors).2) posts
      targetDate authors = ([], (runBlogMain nba posts targetDate authors).2) :=
  runBlog_idem _ posts targetDate authors
    (fun p hp hdate hmem => runBlog_key nba posts targetDate authors p hp
      hdate hmem)

/-- C1: run idempotence for both pipeline drivers. For `main` of
`src/bokuao_news.py`: if every listed item passing the target-date filter is
already notified, the run delivers nothing and the persisted notified set
equals the loaded one (as a set); consequently a second run over the same
listing delivers nothing and leaves the notified set unchanged. For `main`
of `src/notify_bokuao.py`: if every post passing the target-date and
recipient filters is already in its recipient's notified set, the run
delivers nothing and leaves the state exactly unchanged; a second run over
the same posts delivers nothing and leaves the state exactly unchanged. -/
theorem pipeline_idempotence :
    (∀ (notified : List Str) (items : List NewsItem) (today : Str),
      (∀ it ∈ items, it.date = today → it.url ∈ notified) →
      (runNewsMain notified items today).1 = [] ∧
      ∀ x : Str, x ∈ (runNewsMain notified items today).2 ↔ x ∈ notified) ∧
    (∀ (notified : List Str) (items : List NewsItem) (today : Str),
      (runNewsMain ((runNewsMain notified items today).2) items today).1 =
        [] ∧
      ∀ x : Str, x ∈ (runNewsMain ((runNewsMain notified items today).2)
        items today).2 ↔ x ∈ (runNewsMain notified items today).2) ∧
    (∀ (nba : Str → List Str) (posts : List BlogPost) (targetDate : Str)
      (authors : List Str),
      (∀ p ∈ posts, p.date = targetDate →
        norm_author p.author ∈ authors.map norm_author →
        p.url ∈ nba (norm_author p.author)) →
      runBlogMain nba posts targetDate authors = ([], nba)) ∧
    (∀ (nba : Str → List Str) (posts : List BlogPost) (targetDate : Str)
      (authors : List Str),
      runBlogMain ((runBlogMain nba posts targetDate authors).2) posts
        targetDate authors =
        ([], (runBlogMain nba posts targetDate authors).2)) :=
  ⟨runNews_idem, runNews_second, runBlog_idem, runBlog_second⟩

/-- C1 witness at a concrete input: one listed item for today whose locator
is already notified — the run delivers nothing and keeps the locator. -/
theorem pipeline_idempotence_witness :
    (runNewsMain ["u".toList]
      [⟨"2026.01.01".toList, "NEWS".toList, "t".toList, "u".toList⟩]
      ("2026.01.01".toList)).1 = [] ∧
    ("u".toList ∈ (runNewsMain ["u".toList]
      [⟨"2026.01.01".toList, "NEWS".toList, "t".toList, "u".toList⟩]
      ("2026.01.01".toList)).2 ↔ "u".toList ∈ ["u".toList]) :=
  have h := pipeline_idempotence.1 ["u".toList]
    [⟨"2026.01.01".toList, "NEWS".toList, "t".toList, "u".toList⟩]
    ("2026.01.01".toList) (by decide)
  ⟨h.1, h.2 ("u".toList)⟩

theorem headD_append {a : Str} (b : Str) (h : a ≠ []) :
    (a ++ b).headD 'a' = a.headD 'a' := by
  cases a with
  | nil => exact absurd rfl h
  | cons c t => rfl

theorem getLastD_append (a : Str) {b : Str} (h : b ≠ []) :
    (a ++ b).getLastD 'a' = b.getLastD 'a' := by
  rw [List.getLastD_eq_getLast?, List.getLast?_append]
  cases hb : b.getLast? with
  | none => exact absurd (List.getLast?_eq_none_iff.mp hb) h
  | some x =>
    rw [List.getLastD_eq_getLast?, hb]
    rfl

theorem pyRstripBy_eq_nil {q : Char → Bool} : ∀ {s : Str},
    pyRstripBy q s = [] → ∀ c ∈ s, q c = true := by
  intro s
  induction s with
  | nil => intro _ c hc; simp at hc
  | cons a t ih =>
    intro h c hc
    rw [pyRstripBy_cons] at h
    by_cases hcond : pyRstripBy q t = [] ∧ q a = true
    · rcases List.mem_cons.mp hc with he | hm
      · rw [he]; exact hcond.2
      · exact ih hcond.1 c hm
    · rw [if_neg hcond] at h
      simp at h

/-- A string that strips to the empty string is all whitespace. -/
theorem pyStrip_eq_nil {s : Str} (h : pyStrip s = []) :
    ∀ c ∈ s, isPySpace c = true := by
  intro c hc
  rw [pyStrip] at h
  have hsplit := List.takeWhile_append_dropWhile (p := isPySpace) (l := s)
  rw [← hsplit] at hc
  rcases List.mem_append.mp hc with hm | hm
  · exact List.mem_takeWhile_imp hm
  · exact pyRstripBy_eq_nil h c hm

theorem greedyAcc_prefix (lim : Nat) : ∀ (ps acc : List Str) (cur : Nat),
    ∃ k, greedyAcc lim ps acc cur = acc ++ ps.take k := by
  intro ps
  induction ps with
  | nil =>
    intro acc cur
    exact ⟨0, by simp [greedyAcc]⟩
  | cons p rest ih =>
    intro acc cur
    rw [greedyAcc]
    by_cases hc : cur + (p.length + if acc = [] then 0 else 2) ≤ lim
    · rw [if_pos hc]
      obtain ⟨k, hk⟩ := ih (acc ++ [p]) (cur + (p.length + if acc = [] then 0 else 2))
      exact ⟨k + 1, by rw [hk]; simp⟩
    · rw [if_neg hc]
      exact ⟨0, by simp⟩

theorem greedyAcc_ne_nil (lim : Nat) (p : Str) (rest : List Str)
    (h : p.length ≤ lim) : greedyAcc lim (p :: rest) [] 0 ≠ [] := by
  rw [greedyAcc]
  rw [if_pos (by simpa using h)]
  obtain ⟨k, hk⟩ := greedyAcc_prefix lim rest ([] ++ [p]) _
  rw [hk]
  simp

theorem joinNN_merge (xs : List Str) (a b : Str) (ys : List Str) :
    joinNN (xs ++ (a ++ nn ++ b) :: ys) = joinNN (xs ++ a :: b :: ys) := by
  have core : joinNN ((a ++ nn ++ b) :: ys) = joinNN (a :: b :: ys) := by
    cases ys with
    | nil =>
      show a ++ nn ++ b = joinNN [a, b]
      have l1 : joinNN [a, b] = a ++ nn ++ joinNN [b] := joinNN_cons (by simp)
      rw [l1]
      rfl
    | cons y t =>
      have l1 : joinNN ((a ++ nn ++ b) :: y :: t) =
          (a ++ nn ++ b) ++ nn ++ joinNN (y :: t) := joinNN_cons (by simp)
      have l2 : joinNN (a :: b :: y :: t) =
          a ++ nn ++ joinNN (b :: y :: t) := joinNN_cons (by simp)
      have l3 : joinNN (b :: y :: t) = b ++ nn ++ joinNN (y :: t) :=
        joinNN_cons (by simp)
      rw [l1, l2, l3]
      simp [List.append_assoc]
  cases xs with
  | nil => simpa using core
  | cons x t =>
    have r1 : joinNN ((x :: t) ++ (a ++ nn ++ b) :: ys) =
        joinNN (x :: t) ++ nn ++ joinNN ((a ++ nn ++ b) :: ys) :=
      joinNN_append (by simp) (by simp)
    have r2 : joinNN ((x :: t) ++ a :: b :: ys) =
        joinNN (x :: t) ++ nn ++ joinNN (a :: b :: ys) :=
      joinNN_append (by simp) (by simp)
    rw [r1, r2, core]

/-- Invariant description of the chunk-accumulation loop on clean
paragraphs that each fit the limit: the blank-line join of the produced
chunks equals the join of the pending chunks, buffer and paragraphs (no
characters are lost or invented, and no forced cut happens). -/
theorem chunkLoop_blocks (lim : Nat) : ∀ (ps2 : List Str) (buf : Str)
    (chunks : List Str),
    (∀ p ∈ ps2, cleanPara p = true ∧ p.length ≤ lim) →
    (buf = [] ∨ (buf ≠ [] ∧ isPySpace (buf.headD 'a') = false ∧
      isPySpace (buf.getLastD 'a') = false ∧ buf.length ≤ lim)) →
    joinNN (chunkLoop lim ps2 buf chunks) =
      joinNN (chunks ++ (if buf = [] then [] else [buf]) ++ ps2) := by
  intro ps2
  induction ps2 with
  | nil =>
    intro buf chunks _ _
    rw [chunkLoop]
    simp
  | cons p rest ih =>
    intro buf chunks hps hbuf
    have hp := (hps p (by simp)).1
    have hplen := (hps p (by simp)).2
    have hrest : ∀ q ∈ rest, cleanPara q = true ∧ q.length ≤ lim :=
      fun q hq => hps q (by simp [hq])
    rw [chunkLoop]
    rcases hbuf with hbe | ⟨hbn, hbh, hbl, hblen⟩
    · subst hbe
      have hcand : pyStrip (([] : Str) ++
          (if ([] : Str) = [] then [] else nn) ++ p) = p := by
        simp only [if_pos rfl, List.nil_append]
        exact cleanPara_strip hp
      rw [hcand]
      rw [if_pos hplen]
      rw [ih p chunks hrest (Or.inr ⟨cleanPara_ne_nil hp, cleanPara_head hp,
        cleanPara_last hp, hplen⟩)]
      rw [if_neg (cleanPara_ne_nil hp)]
      simp
    · have hcand : pyStrip (buf ++ (if buf = [] then [] else nn) ++ p) =
          buf ++ nn ++ p := by
        rw [if_neg hbn]
        apply pyStrip_of_edge (by simp [hbn])
        · rw [show buf ++ nn ++ p = buf ++ (nn ++ p) from by simp]
          rw [headD_append _ hbn]
          exact hbh
        · rw [getLastD_append _ (cleanPara_ne_nil hp)]
          exact cleanPara_last hp
      rw [hcand]
      by_cases hfit : (buf ++ nn ++ p).length ≤ lim
      · rw [if_pos hfit]
        have hh2 : isPySpace ((buf ++ nn ++ p).headD 'a') = false := by
          rw [show buf ++ nn ++ p = buf ++ (nn ++ p) from by simp]
          rw [headD_append _ hbn]
          exact hbh
        have hl2 : isPySpace ((buf ++ nn ++ p).getLastD 'a') = false := by
          rw [getLastD_append _ (cleanPara_ne_nil hp)]
          exact cleanPara_last hp
        rw [ih (buf ++ nn ++ p) chunks hrest
          (Or.inr ⟨by simp [hbn], hh2, hl2, hfit⟩)]
        rw [if_neg (by simp [hbn] : ¬(buf ++ nn ++ p = [])), if_neg hbn]
        rw [show (chunks ++ [buf ++ nn ++ p]) ++ rest =
          chunks ++ (buf ++ nn ++ p) :: rest from by simp]
        rw [joinNN_merge chunks buf p rest]
        simp
      · rw [if_neg hfit]
        have hhc : hardCut lim p = ([], p) := by
          rw [hardCut, if_pos (Or.inr hplen)]
        rw [hhc]
        rw [if_neg hbn]
        rw [ih p (chunks ++ [buf] ++ []) hrest (Or.inr ⟨cleanPara_ne_nil hp,
          cleanPara_head hp, cleanPara_last hp, hplen⟩)]
        rw [if_neg (cleanPara_ne_nil hp)]
        simp

/-- Chunking the blank-line join of clean paragraphs that each fit the
limit loses nothing: re-joining the chunks yields the original text. -/
theorem chunk_join_clean (lim : Nat) (qs : List Str) (hne : qs ≠ [])
    (hclean : ∀ p ∈ qs, cleanPara p = true)
    (hlen : ∀ p ∈ qs, p.length ≤ lim) :
    joinNN (chunk_text_by_paragraph (joinNN qs) lim) = joinNN qs := by
  rw [chunk_text_by_paragraph]
  rw [pyStrip_joinNN hne hclean]
  rw [if_neg (joinNN_ne_nil hne (fun p hp => cleanPara_ne_nil (hclean p hp)))]
  rw [splitOnSep_joinNN hne hclean]
  have hmap : ∀ (l : List Str), (∀ p ∈ l, pyStrip p = p) →
      l.map pyStrip = l := by
    intro l
    induction l with
    | nil => intro _; rfl
    | cons x t ih =>
      intro h
      rw [List.map_cons, h x (by simp), ih (fun p hp => h p (by simp [hp]))]
  have hparas : ((qs.map pyStrip).filter (fun p => decide (p ≠ []))) = qs := by
    rw [hmap qs (fun p hp => cleanPara_strip (hclean p hp))]
    rw [List.filter_eq_self]
    intro p hp
    simpa using cleanPara_ne_nil (hclean p hp)
  rw [hparas]
  rw [chunkLoop_blocks lim qs [] []
    (fun p hp => ⟨hclean p hp, hlen p hp⟩) (Or.inl rfl)]
  simp

theorem paras_of_clean (qs : List Str)
    (hclean : ∀ p ∈ qs, cleanPara p = true) :
    ((qs.map pyStrip).filter (fun p => decide (p ≠ []))) = qs := by
  have hmap : ∀ (l : List Str), (∀ p ∈ l, pyStrip p = p) →
      l.map pyStrip = l := by
    intro l
    induction l with
    | nil => intro _; rfl
    | cons x t ih =>
      intro h
      rw [List.map_cons, h x (by simp), ih (fun p hp => h p (by simp [hp]))]
  rw [hmap qs (fun p hp => cleanPara_strip (hclean p hp))]
  rw [List.filter_eq_self]
  intro p hp
  simpa using cleanPara_ne_nil (hclean p hp)

theorem lstrip_nn_join {j : Str} (hj : j ≠ [])
    (hh : isPySpace (j.headD 'a') = false) :
    pyLstrip (pyLstripBy (fun c => decide (c = '\n')) (pyLstrip (nn ++ j))) =
      j := by
  cases j with
  | nil => exact absurd rfl hj
  | cons c t =>
    have hc : isPySpace c = false := by simpa using hh
    have h1 : pyLstrip (nn ++ (c :: t)) = c :: t := by
      show List.dropWhile isPySpace ('\n' :: '\n' :: c :: t) = c :: t
      rw [List.dropWhile_cons_of_pos (by decide)]
      rw [List.dropWhile_cons_of_pos (by decide)]
      exact List.dropWhile_cons_of_neg (by simp [hc])
    have h2 : pyLstripBy (fun ch => decide (ch = '\n')) (c :: t) = c :: t := by
      apply List.dropWhile_cons_of_neg
      simp only [decide_eq_true_eq]
      intro he
      rw [he] at hc
      simp [isPySpace] at hc
    have h3 : pyLstrip (c :: t) = c :: t :=
      List.dropWhile_cons_of_neg (by simp [hc])
    rw [h1, h2, h3]

/-- `split_for_embed` on the join of clean paragraphs whose first paragraph
fits the limit: the result is a split of the paragraph list at some index
`k ≥ 1`, with the embed part within the limit (no hard character cut). -/
theorem split_for_embed_clean (lim : Nat) (ps : List Str) (hne : ps ≠ [])
    (hclean : ∀ p ∈ ps, cleanPara p = true)
    (hp1 : (ps.headD []).length ≤ lim) :
    ∃ k, 1 ≤ k ∧
      split_for_embed (joinNN ps) lim =
        (joinNN (ps.take k), joinNN (ps.drop k)) ∧
      (joinNN (ps.take k)).length ≤ lim := by
  have hbody : pyStrip (joinNN ps) = joinNN ps := pyStrip_joinNN hne hclean
  have hbne : joinNN ps ≠ [] :=
    joinNN_ne_nil hne (fun p hp => cleanPara_ne_nil (hclean p hp))
  simp only [split_for_embed, hbody]
  rw [if_neg hbne]
  by_cases hfit : (joinNN ps).length ≤ lim
  · rw [if_pos hfit]
    refine ⟨ps.length, ?_, ?_, ?_⟩
    · cases ps with
      | nil => exact absurd rfl hne
      | cons p t => simp
    · have ht : ps.take ps.length = ps := List.take_of_length_le (le_refl _)
      have hd : ps.drop ps.length = [] := by simp
      rw [ht, hd]
      rfl
    · rw [List.take_of_length_le (le_refl _)]
      exact hfit
  · rw [if_neg hfit]
    rw [splitOnSep_joinNN hne hclean, paras_of_clean ps hclean]
    obtain ⟨k0, hk0⟩ := greedyAcc_prefix lim ps [] 0
    simp only [List.nil_append] at hk0
    have hgne : greedyAcc lim ps [] 0 ≠ [] := by
      cases ps with
      | nil => exact absurd rfl hne
      | cons p1 rest =>
        apply greedyAcc_ne_nil
        simpa using hp1
    rw [hk0]
    have htne : ps.take k0 ≠ [] := by
      rw [hk0] at hgne
      exact hgne
    rw [if_pos htne]
    have hcleantake : ∀ p ∈ ps.take k0, cleanPara p = true :=
      fun p hp => hclean p (List.take_subset k0 ps hp)
    have hstripT : pyStrip (joinNN (ps.take k0)) = joinNN (ps.take k0) :=
      pyStrip_joinNN htne hcleantake
    have hlen : (joinNN (ps.take k0)).length ≤ lim := by
      have hg := greedyAcc_len lim ps [] 0 rfl (Nat.zero_le lim)
      rw [hk0] at hg
      exact hg
    have hk1 : 1 ≤ k0 := by
      by_contra hc
      have : k0 = 0 := by omega
      rw [this] at htne
      simp at htne
    refine ⟨k0, hk1, ?_, hlen⟩
    rw [hstripT]
    by_cases hdrop : ps.drop k0 = []
    · have htk : ps.take k0 = ps :=
        List.take_of_length_le (List.drop_eq_nil_iff.mp hdrop)
      rw [htk, hdrop]
      have hdnil : (joinNN ps).drop (joinNN ps).length = [] := by simp
      rw [hdnil]
      rfl
    · have hdec : joinNN ps =
          joinNN (ps.take k0) ++ (nn ++ joinNN (ps.drop k0)) := by
        conv_lhs => rw [← List.take_append_drop k0 ps]
        rw [joinNN_append htne hdrop]
        simp [List.append_assoc]
      have hdropEq : (joinNN ps).drop (joinNN (ps.take k0)).length =
          nn ++ joinNN (ps.drop k0) := by
        rw [hdec]
        exact List.drop_left' rfl
      rw [hdropEq]
      have hcleandrop : ∀ p ∈ ps.drop k0, cleanPara p = true :=
        fun p hp => hclean p (List.drop_subset k0 ps hp)
      have hdje := joinNN_edge hdrop hcleandrop
      rw [lstrip_nn_join hdje.1 hdje.2.1]

/-- Remove an appended suffix (the footer line with its blank-line
separator) when present. -/
def removeTailFooter (suf s : Str) : Str :=
  if suf.isSuffixOf s then s.take (s.length - suf.length) else s

/-- Remove the injected continuation marker when present. -/
def dropContMarker (s : Str) : Str :=
  if contMarker.isPrefixOf s then s.drop contMarker.length else s

/-- Rejoin the delivered segments at blank-line paragraph boundaries after
removing only the appended footer line from the embed description and the
injected continuation marker from the first overflow message. -/
def recoverSegments (fl : Str) (em : Embed × List Str) : Str :=
  joinNN (removeTailFooter (nn ++ fl) em.1.description ::
    (match em.2 with
     | [] => []
     | m :: r => dropContMarker m :: r))

/-- C2 (amended): segmentation round-trip. For a normalized body given by
its clean paragraphs, whose first paragraph fits the embed budget, and —
as the counterexample forces — whose paragraphs all fit the
2000-character plain limit (no forced hard cut while chunking the
overflow) and whose first overflow chunk leaves room for the continuation
marker (no truncation when the marker is prefixed), joining the embed body
and the overflow chunks at blank-line boundaries after removing only the
marker and the footer reproduces the body. -/
theorem segmentation_roundtrip_amended (ps : List Str)
    (title url category date : Str) (hne : ps ≠ [])
    (hclean : ∀ p ∈ ps, cleanPara p = true)
    (hlen : ∀ p ∈ ps, p.length ≤ DISCORD_CONTENT_LIMIT)
    (hfirst : (ps.headD []).length ≤ EMBED_DESC_LIMIT_SOFT -
      (2 + (pyStrip (category ++ (' ' :: '/' :: ' ' :: []) ++ date)).length))
    (hmark : ((chunk_text_by_paragraph
        (pyStrip (split_for_embed (joinNN ps)
          (EMBED_DESC_LIMIT_SOFT -
            (2 + (pyStrip (category ++ (' ' :: '/' :: ' ' :: []) ++
              date)).length))).2)
        DISCORD_CONTENT_LIMIT).headD []).length + contMarker.length ≤
      DISCORD_CONTENT_LIMIT) :
    recoverSegments
      (pyStrip (category ++ (' ' :: '/' :: ' ' :: []) ++ date))
      (build_embed_and_overflow_messages title url (joinNN ps) category
        date) = joinNN ps := by
  have hfl_ne : pyStrip (category ++ (' ' :: '/' :: ' ' :: []) ++ date) ≠
      [] := by
    intro hc
    have hsl := pyStrip_eq_nil hc '/' (by simp)
    simp [isPySpace] at hsl
  have hbody : pyStrip (joinNN ps) = joinNN ps := pyStrip_joinNN hne hclean
  obtain ⟨k, hk1, hsp, hsplen⟩ := split_for_embed_clean
    (EMBED_DESC_LIMIT_SOFT -
      (2 + (pyStrip (category ++ (' ' :: '/' :: ' ' :: []) ++
        date)).length)) ps hne hclean hfirst
  have htne : ps.take k ≠ [] := by
    cases ps with
    | nil => exact absurd rfl hne
    | cons p t =>
      cases k with
      | zero => omega
      | succ k2 => simp
  have hcleantake : ∀ p ∈ ps.take k, cleanPara p = true :=
    fun p hp => hclean p (List.take_subset k ps hp)
  have hstripT : pyStrip (joinNN (ps.take k)) = joinNN (ps.take k) :=
    pyStrip_joinNN htne hcleantake
  have hTedge := joinNN_edge htne hcleantake
  have hrstr : pyRstripBy isPySpace (joinNN (ps.take k)) =
      joinNN (ps.take k) := pyRstripBy_of_getLastD hTedge.1 hTedge.2.2
  have hp1mem : ps.headD [] ∈ ps := by
    cases ps with
    | nil => exact absurd rfl hne
    | cons p t => simp
  have h2fl : 2 + (pyStrip (category ++ (' ' :: '/' :: ' ' :: []) ++
      date)).length ≤ EMBED_DESC_LIMIT_SOFT := by
    by_contra hc
    push_neg at hc
    have hL0 : EMBED_DESC_LIMIT_SOFT -
        (2 + (pyStrip (category ++ (' ' :: '/' :: ' ' :: []) ++
          date)).length) = 0 := by omega
    rw [hL0] at hfirst
    have hpne := cleanPara_ne_nil (hclean _ hp1mem)
    have hplen0 : (ps.headD []).length = 0 := by omega
    exact hpne (List.eq_nil_of_length_eq_zero hplen0)
  have hdesclen : (joinNN (ps.take k) ++
      (nn ++ pyStrip (category ++ (' ' :: '/' :: ' ' :: []) ++
        date))).length ≤ EMBED_DESC_LIMIT_HARD := by
    simp only [List.length_append, nn, List.length_cons, List.length_nil]
    simp only [EMBED_DESC_LIMIT_SOFT] at hsplen h2fl
    simp only [EMBED_DESC_LIMIT_HARD]
    omega
  have hrt : removeTailFooter
      (nn ++ pyStrip (category ++ (' ' :: '/' :: ' ' :: []) ++ date))
      (joinNN (ps.take k) ++
        (nn ++ pyStrip (category ++ (' ' :: '/' :: ' ' :: []) ++ date))) =
      joinNN (ps.take k) := by
    rw [removeTailFooter]
    rw [if_pos (List.isSuffixOf_iff_suffix.mpr (List.suffix_append _ _))]
    rw [List.length_append, Nat.add_sub_cancel]
    exact List.take_left _ _
  simp only [recoverSegments, build_embed_and_overflow_messages]
  simp only [if_neg hfl_ne]
  rw [hbody, hsp]
  dsimp only
  rw [hstripT]
  rw [if_pos (hTedge.1 : ¬(joinNN (ps.take k) = []))]
  simp only [pyRstrip]
  rw [hrstr]
  rw [truncate_of_le hdesclen]
  rw [hrt]
  by_cases hdrop : ps.drop k = []
  · rw [hdrop]
    rw [show pyStrip (joinNN ([] : List Str)) = [] from rfl]
    rw [if_pos rfl]
    have htk : ps.take k = ps :=
      List.take_of_length_le (List.drop_eq_nil_iff.mp hdrop)
    rw [htk]
    rfl
  · have hcleandrop : ∀ p ∈ ps.drop k, cleanPara p = true :=
      fun p hp => hclean p (List.drop_subset k ps hp)
    have hlendrop : ∀ p ∈ ps.drop k, p.length ≤ DISCORD_CONTENT_LIMIT :=
      fun p hp => hlen p (List.drop_subset k ps hp)
    have hDne : joinNN (ps.drop k) ≠ [] :=
      joinNN_ne_nil hdrop (fun p hp => cleanPara_ne_nil (hcleandrop p hp))
    have hstripD : pyStrip (joinNN (ps.drop k)) = joinNN (ps.drop k) :=
      pyStrip_joinNN hdrop hcleandrop
    rw [hstripD]
    rw [if_neg hDne]
    have hcjoin := chunk_join_clean DISCORD_CONTENT_LIMIT (ps.drop k) hdrop
      hcleandrop hlendrop
    rw [hsp] at hmark
    dsimp only at hmark
    rw [hstripD] at hmark
    cases hch : chunk_text_by_paragraph (joinNN (ps.drop k))
        DISCORD_CONTENT_LIMIT with
    | nil =>
      exfalso
      rw [hch] at hcjoin
      exact hDne (by simpa using hcjoin.symm)
    | cons c0 cs =>
      rw [hch] at hcjoin hmark
      simp only [List.headD_cons] at hmark
      have hm0 : truncate (some (contMarker ++ c0)) DISCORD_CONTENT_LIMIT =
          contMarker ++ c0 := by
        apply truncate_of_le
        rw [List.length_append]
        omega
      dsimp only
      rw [hm0]
      have hdm : dropContMarker (contMarker ++ c0) = c0 := by
        rw [dropContMarker]
        rw [if_pos (List.isPrefixOf_iff_prefix.mpr
          (List.prefix_append _ _))]
        exact List.drop_left _ _
      rw [hdm]
      have hfin : joinNN (joinNN (ps.take k) :: c0 :: cs) =
          joinNN (ps.take k) ++ nn ++ joinNN (c0 :: cs) :=
        joinNN_cons (by simp)
      rw [hfin, hcjoin]
      conv_rhs => rw [← List.take_append_drop k ps]
      rw [joinNN_append htne hdrop]

/-- C2 witness for the amended theorem at a concrete input. -/
theorem segmentation_roundtrip_amended_witness :
    recoverSegments
      (pyStrip ("C".toList ++ (' ' :: '/' :: ' ' :: []) ++ "D".toList))
      (build_embed_and_overflow_messages ("t".toList) ("u".toList)
        (joinNN [['a']]) ("C".toList) ("D".toList)) = joinNN [['a']] :=
  segmentation_roundtrip_amended [['a']] ("t".toList) ("u".toList)
    ("C".toList) ("D".toList) (by decide) (by decide) (by decide)
    (by decide) (by decide)

theorem getLastD_replicate_self (c : Char) :
    ∀ n, (List.replicate n c).getLastD c = c := by
  intro n
  induction n with
  | zero => rfl
  | succ m ih =>
    rw [List.replicate_succ, List.getLastD_cons]
    exact ih

theorem replicate_ne_nil_of_pos {c : Char} {n : Nat} (hn : 1 ≤ n) :
    List.replicate n c ≠ [] := by
  intro h
  have := congrArg List.length h
  simp at this
  omega

theorem headD_replicate {c : Char} {n : Nat} (hn : 1 ≤ n) (d : Char) :
    (List.replicate n c).headD d = c := by
  obtain ⟨m, rfl⟩ : ∃ m, n = m + 1 := ⟨n - 1, by omega⟩
  rw [List.replicate_succ]
  rfl

theorem cleanPara_replicate (n : Nat) (hn : 1 ≤ n) {c : Char}
    (hc : isPySpace c = false) :
    cleanPara (List.replicate n c) = true := by
  rw [cleanPara]
  have h1 : List.replicate n c ≠ [] := replicate_ne_nil_of_pos hn
  have h2 : (List.replicate n c).headD 'a' = c := headD_replicate hn 'a'
  have h3 : (List.replicate n c).getLastD 'a' = c := by
    rw [getLastD_irrel h1 'a' c]
    exact getLastD_replicate_self c n
  have h4 : findSub (List.replicate n c) nn = none :=
    findSub_nn_none_of_noWs
      (fun x hx => by rw [List.eq_of_mem_replicate hx]; exact hc)
  rw [h2, h3]
  simp [h1, hc, containsSub, h4]

theorem cex_split : split_for_embed
    (joinNN [List.replicate 1991 'a', List.replicate 2001 'b']) 3993 =
    (List.replicate 1991 'a', List.replicate 2001 'b') := by
  have hc1 : cleanPara (List.replicate 1991 'a') = true :=
    cleanPara_replicate 1991 (by omega) (by decide)
  have hc2 : cleanPara (List.replicate 2001 'b') = true :=
    cleanPara_replicate 2001 (by omega) (by decide)
  have hclean : ∀ p ∈ [List.replicate 1991 'a', List.replicate 2001 'b'],
      cleanPara p = true := by
    intro p hp
    rcases List.mem_cons.mp hp with h | h
    · rw [h]; exact hc1
    · simp only [List.mem_singleton] at h
      rw [h]; exact hc2
  have hne : ([List.replicate 1991 'a', List.replicate 2001 'b'] :
      List Str) ≠ [] := List.cons_ne_nil _ _
  have hbody := pyStrip_joinNN hne hclean
  simp only [split_for_embed, hbody]
  have hdec : joinNN [List.replicate 1991 'a', List.replicate 2001 'b'] =
      List.replicate 1991 'a' ++ (nn ++ List.replicate 2001 'b') := by
    rw [joinNN_cons (List.cons_ne_nil _ _)]
    rw [show joinNN [List.replicate 2001 'b'] = List.replicate 2001 'b'
      from rfl]
    rw [List.append_assoc]
  have hblen : (joinNN [List.replicate 1991 'a',
      List.replicate 2001 'b']).length = 3994 := by
    rw [hdec]
    simp only [List.length_append, List.length_replicate, nn,
      List.length_cons, List.length_nil]
  rw [if_neg (joinNN_ne_nil hne
    (fun p hp => cleanPara_ne_nil (hclean p hp)))]
  rw [if_neg (by rw [hblen]; omega)]
  rw [splitOnSep_joinNN hne hclean, paras_of_clean _ hclean]
  have hacc : greedyAcc 3993
      [List.replicate 1991 'a', List.replicate 2001 'b'] [] 0 =
      [List.replicate 1991 'a'] := by
    rw [greedyAcc]
    simp only [List.length_replicate, List.nil_append]
    rw [if_pos trivial]
    rw [if_pos (by omega : 0 + (1991 + 0) ≤ 3993)]
    rw [greedyAcc]
    simp only [List.length_replicate]
    rw [if_neg (List.cons_ne_nil _ _)]
    rw [if_neg (by omega : ¬(0 + (1991 + 0) + (2001 + 2) ≤ 3993))]
  rw [hacc]
  rw [if_pos (List.cons_ne_nil _ _ :
    ¬([List.replicate 1991 'a'] = ([] : List Str)))]
  rw [show joinNN [List.replicate 1991 'a'] = List.replicate 1991 'a'
    from rfl]
  have hs1 : pyStrip (List.replicate 1991 'a') = List.replicate 1991 'a' :=
    pyStrip_of_noWs (fun c hc => by rw [List.eq_of_mem_replicate hc]; rfl)
  rw [hs1]
  have hdropEq : (joinNN [List.replicate 1991 'a',
      List.replicate 2001 'b']).drop (List.replicate 1991 'a').length =
      nn ++ List.replicate 2001 'b' := by
    rw [hdec]
    exact List.drop_left' rfl
  rw [hdropEq]
  rw [lstrip_nn_join (replicate_ne_nil_of_pos (by omega))
    (by rw [headD_replicate (by omega) 'a']; rfl)]

theorem cex_chunk : chunk_text_by_paragraph (List.replicate 2001 'b') 2000 =
    [(List.replicate 2001 'b').take 2000,
     (List.replicate 2001 'b').drop 2000] := by
  have hws : ∀ c ∈ List.replicate 2001 'b', isPySpace c = false :=
    fun c hc => by rw [List.eq_of_mem_replicate hc]; rfl
  have hstrip : pyStrip (List.replicate 2001 'b') =
      List.replicate 2001 'b' := pyStrip_of_noWs hws
  have hne : List.replicate 2001 'b' ≠ ([] : Str) :=
    replicate_ne_nil_of_pos (by omega)
  rw [chunk_text_by_paragraph]
  simp only [hstrip]
  rw [if_neg hne]
  rw [splitOnSep_of_none (findSub_nn_none_of_noWs hws)]
  have hparas : ((([List.replicate 2001 'b'].map pyStrip)).filter
      (fun p => decide (p ≠ []))) = [List.replicate 2001 'b'] := by
    rw [show ([List.replicate 2001 'b'].map pyStrip) =
      [pyStrip (List.replicate 2001 'b')] from rfl]
    rw [hstrip]
    rw [List.filter_cons_of_pos (by simp only [decide_eq_true_eq]; exact hne)]
    rfl
  rw [hparas]
  have hhc : hardCut 2000 (List.replicate 2001 'b') =
      ([(List.replicate 2001 'b').take 2000],
       (List.replicate 2001 'b').drop 2000) := by
    rw [hardCut]
    rw [if_neg (by
      simp only [List.length_replicate]
      omega)]
    rw [hardCut]
    rw [if_pos (Or.inr (by
      simp only [List.length_drop, List.length_replicate]
      omega))]
  have hfst : (hardCut 2000 (List.replicate 2001 'b')).1 =
      [(List.replicate 2001 'b').take 2000] := by rw [hhc]
  have hsnd : (hardCut 2000 (List.replicate 2001 'b')).2 =
      (List.replicate 2001 'b').drop 2000 := by rw [hhc]
  have hstep : chunkLoop 2000 [List.replicate 2001 'b'] [] [] =
      chunkLoop 2000 [] ((List.replicate 2001 'b').drop 2000)
        [(List.replicate 2001 'b').take 2000] := by
    conv_lhs => rw [chunkLoop]
    rw [show (([] : Str) ++ (if ([] : Str) = [] then [] else nn) ++
        List.replicate 2001 'b') = List.replicate 2001 'b' from rfl]
    rw [hstrip]
    rw [if_neg (by
      simp only [List.length_replicate]
      omega)]
    dsimp only
    rw [hfst, hsnd]
    rw [show (([] : List Str) ++
        (if ([] : Str) = [] then [] else [([] : Str)])) = ([] : List Str)
      from rfl]
    rw [List.nil_append]
  rw [hstep]
  rw [chunkLoop]
  rw [if_neg (by
    intro hc
    have hlc := congrArg List.length hc
    simp only [List.length_drop, List.length_replicate,
      List.length_nil] at hlc
    omega)]
  rfl

theorem recover_build_eq (title url body category date P1 P2 C0 Crest M0 :
    Str)
    (hflne : pyStrip (category ++ (' ' :: '/' :: ' ' :: []) ++ date) ≠ [])
    (hbody : pyStrip body = body)
    (hsp : split_for_embed body (EMBED_DESC_LIMIT_SOFT -
      (2 + (pyStrip (category ++ (' ' :: '/' :: ' ' :: []) ++
        date)).length)) = (P1, P2))
    (hs1 : pyStrip P1 = P1)
    (hp1ne : P1 ≠ [])
    (hrstr1 : pyRstripBy isPySpace P1 = P1)
    (hdesclen : (P1 ++ (nn ++ pyStrip (category ++
      (' ' :: '/' :: ' ' :: []) ++ date))).length ≤ EMBED_DESC_LIMIT_HARD)
    (hs2 : pyStrip P2 = P2)
    (hp2ne : P2 ≠ [])
    (hch : chunk_text_by_paragraph P2 DISCORD_CONTENT_LIMIT = [C0, Crest])
    (hm0 : truncate (some (contMarker ++ C0)) DISCORD_CONTENT_LIMIT =
      contMarker ++ M0) :
    recoverSegments
      (pyStrip (category ++ (' ' :: '/' :: ' ' :: []) ++ date))
      (build_embed_and_overflow_messages title url body category date) =
    joinNN [P1, M0, Crest] := by
  have hrt : removeTailFooter
      (nn ++ pyStrip (category ++ (' ' :: '/' :: ' ' :: []) ++ date))
      (P1 ++ (nn ++ pyStrip (category ++ (' ' :: '/' :: ' ' :: []) ++
        date))) = P1 := by
    rw [removeTailFooter]
    rw [if_pos (List.isSuffixOf_iff_suffix.mpr (List.suffix_append _ _))]
    rw [List.length_append, Nat.add_sub_cancel]
    exact List.take_left _ _
  have hdm : dropContMarker (contMarker ++ M0) = M0 := by
    rw [dropContMarker]
    rw [if_pos (List.isPrefixOf_iff_prefix.mpr (List.prefix_append _ _))]
    exact List.drop_left _ _
  simp only [recoverSegments, build_embed_and_overflow_messages]
  simp only [if_neg hflne]
  rw [hbody, hsp]
  dsimp only
  rw [hs1]
  rw [if_pos hp1ne]
  simp only [pyRstrip]
  rw [hrstr1]
  rw [truncate_of_le hdesclen]
  rw [hrt]
  rw [hs2]
  rw [if_neg hp2ne]
  rw [hch]
  dsimp only
  rw [hm0]
  rw [hdm]

/-- C2 counterexample: a normalized two-paragraph body whose first
paragraph fits the embed budget (the claim's only carve-out) but whose
second paragraph exceeds the 2000-character plain limit. The forced hard
cut inside the overflow chunker and the marker-induced truncation of the
first overflow message lose characters, so rejoining the delivered
segments after removing only the marker and the footer does not
reproduce the body. -/
theorem segmentation_roundtrip_cex :
    ([List.replicate 1991 'a', List.replicate 2001 'b'].all cleanPara =
      true) ∧
    ((List.replicate 1991 'a').length ≤ EMBED_DESC_LIMIT_SOFT -
      (2 + (pyStrip ("C".toList ++ (' ' :: '/' :: ' ' :: []) ++
        "D".toList)).length)) ∧
    recoverSegments
      (pyStrip ("C".toList ++ (' ' :: '/' :: ' ' :: []) ++ "D".toList))
      (build_embed_and_overflow_messages ("t".toList) ("u".toList)
        (joinNN [List.replicate 1991 'a', List.replicate 2001 'b'])
        ("C".toList) ("D".toList)) ≠
      joinNN [List.replicate 1991 'a', List.replicate 2001 'b'] := by
  have hc1 : cleanPara (List.replicate 1991 'a') = true :=
    cleanPara_replicate 1991 (by omega) (by decide)
  have hc2 : cleanPara (List.replicate 2001 'b') = true :=
    cleanPara_replicate 2001 (by omega) (by decide)
  refine ⟨?_, ?_, ?_⟩
  · rw [List.all_cons, List.all_cons, List.all_nil, hc1, hc2]
    rfl
  · rw [List.length_replicate]
    decide
  · intro heq
    have hclean : ∀ p ∈ [List.replicate 1991 'a', List.replicate 2001 'b'],
        cleanPara p = true := by
      intro p hp
      rcases List.mem_cons.mp hp with h | h
      · rw [h]; exact hc1
      · simp only [List.mem_singleton] at h
        rw [h]; exact hc2
    have hne2 : ([List.replicate 1991 'a', List.replicate 2001 'b'] :
        List Str) ≠ [] := List.cons_ne_nil _ _
    have hbody := pyStrip_joinNN hne2 hclean
    have hflne : pyStrip ("C".toList ++ (' ' :: '/' :: ' ' :: []) ++
        "D".toList) ≠ [] := by decide
    have hfl5 : (pyStrip ("C".toList ++ (' ' :: '/' :: ' ' :: []) ++
        "D".toList)).length = 5 := by decide
    have hp1ne : List.replicate 1991 'a' ≠ ([] : Str) :=
      replicate_ne_nil_of_pos (by omega)
    have hp2ne : List.replicate 2001 'b' ≠ ([] : Str) :=
      replicate_ne_nil_of_pos (by omega)
    have hs1 : pyStrip (List.replicate 1991 'a') =
        List.replicate 1991 'a' :=
      pyStrip_of_noWs (fun c hc => by rw [List.eq_of_mem_replicate hc]; rfl)
    have hs2 : pyStrip (List.replicate 2001 'b') =
        List.replicate 2001 'b' :=
      pyStrip_of_noWs (fun c hc => by rw [List.eq_of_mem_replicate hc]; rfl)
    have hrstr1 : pyRstripBy isPySpace (List.replicate 1991 'a') =
        List.replicate 1991 'a' :=
      pyRstripBy_of_getLastD hp1ne (by
        rw [getLastD_irrel hp1ne 'a' 'a', getLastD_replicate_self 'a' 1991]
        rfl)
    have hL : EMBED_DESC_LIMIT_SOFT -
        (2 + (pyStrip ("C".toList ++ (' ' :: '/' :: ' ' :: []) ++
          "D".toList)).length) = 3993 := by decide
    have hdesclen : (List.replicate 1991 'a' ++
        (nn ++ pyStrip ("C".toList ++ (' ' :: '/' :: ' ' :: []) ++
          "D".toList))).length ≤ EMBED_DESC_LIMIT_HARD := by
      simp only [List.length_append, List.length_replicate, nn,
        List.length_cons, List.length_nil, hfl5, EMBED_DESC_LIMIT_HARD]
      omega
    have hclen5 : contMarker.length = 5 := by decide
    have hm0 : truncate (some (contMarker ++
        (List.replicate 2001 'b').take 2000)) DISCORD_CONTENT_LIMIT =
        contMarker ++ (((List.replicate 2001 'b').take 2000).take 1994 ++
          ['…']) := by
      have hslen : (contMarker ++
          (List.replicate 2001 'b').take 2000).length = 2005 := by
        simp only [List.length_append, List.length_take,
          List.length_replicate, hclen5]
        omega
      have hsne : contMarker ++ (List.replicate 2001 'b').take 2000 ≠
          ([] : Str) := by
        intro hc
        have h2 := congrArg List.length hc
        rw [hslen] at h2
        simp only [List.length_nil] at h2
        omega
      rw [truncate]
      rw [if_neg hsne]
      rw [if_neg (by rw [hslen]; decide)]
      rw [show DISCORD_CONTENT_LIMIT - 1 = 1999 from by decide]
      rw [List.take_append_eq_append_take]
      rw [List.take_of_length_le (by rw [hclen5]; omega)]
      rw [hclen5]
      rw [show (1999 - 5 : Nat) = 1994 from rfl]
      rw [List.append_assoc]
    have hchunkD : chunk_text_by_paragraph (List.replicate 2001 'b')
        DISCORD_CONTENT_LIMIT =
        [(List.replicate 2001 'b').take 2000,
         (List.replicate 2001 'b').drop 2000] := cex_chunk
    have hspC : split_for_embed
        (joinNN [List.replicate 1991 'a', List.replicate 2001 'b'])
        (EMBED_DESC_LIMIT_SOFT -
          (2 + (pyStrip ("C".toList ++ (' ' :: '/' :: ' ' :: []) ++
            "D".toList)).length)) =
        (List.replicate 1991 'a', List.replicate 2001 'b') := by
      rw [hL]
      exact cex_split
    have hrec := recover_build_eq ("t".toList) ("u".toList)
      (joinNN [List.replicate 1991 'a', List.replicate 2001 'b'])
      ("C".toList) ("D".toList)
      (List.replicate 1991 'a') (List.replicate 2001 'b')
      ((List.replicate 2001 'b').take 2000)
      ((List.replicate 2001 'b').drop 2000)
      (((List.replicate 2001 'b').take 2000).take 1994 ++ ['…'])
      hflne hbody hspC hs1 hp1ne hrstr1 hdesclen hs2 hp2ne hchunkD hm0
    have hjoin := hrec.symm.trans heq
    have hlenL : (joinNN [List.replicate 1991 'a',
        ((List.replicate 2001 'b').take 2000).take 1994 ++ ['…'],
        (List.replicate 2001 'b').drop 2000]).length = 3991 := by
      rw [joinNN_cons (List.cons_ne_nil _ _)]
      rw [joinNN_cons (List.cons_ne_nil _ _)]
      rw [show joinNN [(List.replicate 2001 'b').drop 2000] =
        (List.replicate 2001 'b').drop 2000 from rfl]
      simp only [List.length_append, List.length_replicate,
        List.length_take, List.length_drop, List.length_cons,
        List.length_nil, nn]
      omega
    have hlenR : (joinNN [List.replicate 1991 'a',
        List.replicate 2001 'b']).length = 3994 := by
      rw [joinNN_cons (List.cons_ne_nil _ _)]
      rw [show joinNN [List.replicate 2001 'b'] = List.replicate 2001 'b'
        from rfl]
      simp only [List.length_append, List.length_replicate, nn,
        List.length_cons, List.length_nil]
    have hL2 := congrArg List.length hjoin
    rw [hlenL, hlenR] at hL2
    exact absurd hL2 (by decide)
